import Mathlib

/-!
# libopenui text keyboard (`src/keyboard_text.cpp`)

A shallow embedding of the on-screen text keyboard: the layout tables, the
paint routine, the touch hit-test with its edit actions, and the cursor
repositioning.

Conventions of the embedding:
* a `char` is its byte value as a `Nat` (0..255); `int8_t(c) < 0` is `128 ≤ c`;
* a C string (a layout row) is the list of its bytes before the terminator
  (a walk over a row also stops at a zero byte, as `while (*key)` does);
* the bound field is the buffer `data` of `getMaxLength()` bytes, so
  `size = data.length` (the capacity is a `uint8_t`: at most 255);
* `coord_t` is `int`, embedded as `Int`; `cursorPos` is a `coord_t`;
* `cursorIndex` is an index into the buffer, embedded as `Nat` (the code keeps
  it at most `size`, so a `uint8_t` holding it never wraps);
* `getCharWidth(c, fontspecsTable[0])` is declared outside this file and is a
  parameter `getCharWidth : Nat → Nat` of the operations;
* an out-of-bounds access (undefined behaviour in C++) makes an operation
  return `none` (`Option.bind` passes it on).
-/

namespace TextKeyboard

/-! ## Layout tables (lines 29-95) -/

/-- The bitmaps included at lines 29-51. -/
inductive Bitmap
  | LBM_KEY_UPPERCASE
  | LBM_KEY_LOWERCASE
  | LBM_KEY_BACKSPACE
  | LBM_KEY_LETTERS
  | LBM_KEY_NUMBERS
  | LBM_KEY_SPACEBAR
  deriving DecidableEq, Repr

/-- Icons of the control keys, indexed by `byte - 128` (lines 53-59). -/
def LBM_SPECIAL_KEYS : List Bitmap :=
  [Bitmap.LBM_KEY_BACKSPACE, Bitmap.LBM_KEY_UPPERCASE, Bitmap.LBM_KEY_LOWERCASE,
   Bitmap.LBM_KEY_LETTERS, Bitmap.LBM_KEY_NUMBERS]

/-- The byte of `"\t"` (line 61). -/
abbrev KEYBOARD_SPACE : Nat := 9
/-- The byte of `"\n"` (line 62). -/
abbrev KEYBOARD_ENTER : Nat := 10
/-- The byte of `"\200"` (line 63). -/
abbrev KEYBOARD_BACKSPACE : Nat := 128
/-- The byte of `"\201"` (line 64). -/
abbrev KEYBOARD_SET_UPPERCASE : Nat := 129
/-- The byte of `"\202"` (line 65). -/
abbrev KEYBOARD_SET_LOWERCASE : Nat := 130
/-- The byte of `"\203"` (line 66). -/
abbrev KEYBOARD_SET_LETTERS : Nat := 131
/-- The byte of `"\204"` (line 67). -/
abbrev KEYBOARD_SET_NUMBERS : Nat := 132

/-- Lines 69-74: `"qwertyuiop"`, `" asdfghjkl"`, `\201 "zxcvbnm" \200`,
`\204 \t \n`. -/
def KEYBOARD_LOWERCASE : List (List Nat) :=
  [ [113, 119, 101, 114, 116, 121, 117, 105, 111, 112],
    [32, 97, 115, 100, 102, 103, 104, 106, 107, 108],
    [KEYBOARD_SET_UPPERCASE, 122, 120, 99, 118, 98, 110, 109, KEYBOARD_BACKSPACE],
    [KEYBOARD_SET_NUMBERS, KEYBOARD_SPACE, KEYBOARD_ENTER] ]

/-- Lines 76-81: `"QWERTYUIOP"`, `" ASDFGHJKL"`, `\202 "ZXCVBNM" \200`,
`\204 \t \n`. -/
def KEYBOARD_UPPERCASE : List (List Nat) :=
  [ [81, 87, 69, 82, 84, 89, 85, 73, 79, 80],
    [32, 65, 83, 68, 70, 71, 72, 74, 75, 76],
    [KEYBOARD_SET_LOWERCASE, 90, 88, 67, 86, 66, 78, 77, KEYBOARD_BACKSPACE],
    [KEYBOARD_SET_NUMBERS, KEYBOARD_SPACE, KEYBOARD_ENTER] ]

/-- Lines 83-88: `"1234567890"`, `"_-"`, seventeen blanks then `\200`,
`\203 \t \n`. -/
def KEYBOARD_NUMBERS : List (List Nat) :=
  [ [49, 50, 51, 52, 53, 54, 55, 56, 57, 48],
    [95, 45],
    [32, 32, 32, 32, 32, 32, 32, 32, 32, 32, 32, 32, 32, 32, 32, 32, 32,
      KEYBOARD_BACKSPACE],
    [KEYBOARD_SET_LETTERS, KEYBOARD_SPACE, KEYBOARD_ENTER] ]

/-- Layouts selected by the control keys, indexed by `byte - 129`
(lines 90-95). -/
def KEYBOARD_LAYOUTS : List (List (List Nat)) :=
  [KEYBOARD_UPPERCASE, KEYBOARD_LOWERCASE, KEYBOARD_LOWERCASE, KEYBOARD_NUMBERS]

/-! ## Widget state -/

/-- The members the code reads and writes: the bound field's buffer
(`none` when `field` is null), `cursorPos`, `cursorIndex`, and the active
`layout`. -/
structure State where
  field : Option (List Nat)
  cursorPos : Int
  cursorIndex : Nat
  layout : List (List Nat)
  deriving DecidableEq, Repr

/-- Calls made on the collaborators, in order. -/
inductive Call
  | onKeyPress
  | disable (resizePage : Bool)
  | invalidate
  | fieldInvalidate
  deriving DecidableEq, Repr

/-- What a call of `onTouchEnd` leaves behind: the state, the returned
value and the collaborator calls made. -/
structure Outcome where
  kb : State
  ret : Bool
  calls : List Call
  deriving DecidableEq, Repr

/-- The constructor (lines 97-101): no field bound, lowercase layout. -/
def init : State :=
  { field := none, cursorPos := 0, cursorIndex := 0, layout := KEYBOARD_LOWERCASE }

/-! ## Memory primitives -/

/-- C `memmove(data + dst, data + src, n)` inside the buffer `data`; a
negative count (a huge `size_t`) or a range leaving the buffer is undefined
behaviour. -/
def memmove (data : List Nat) (dst src : Nat) (n : Int) : Option (List Nat) :=
  if 0 ≤ n ∧ src + n.toNat ≤ data.length ∧ dst + n.toNat ≤ data.length then
    some (data.take dst ++ (data.drop src).take n.toNat ++ data.drop (dst + n.toNat))
  else
    none

/-- The assignment `data[i] = v`. -/
def store (data : List Nat) (i : Nat) (v : Nat) : Option (List Nat) :=
  if i < data.length then some (data.set i v) else none

/-! ## `setCursorPos` (lines 108-127) -/

/-- The loop of lines 116-124, walking the bytes from `data + cursorIndex`
on; returns `cursorIndex` and `rest` at loop exit. The list is exhausted
exactly when `cursorIndex < size` fails. -/
def cursorWalk (getCharWidth : Nat → Nat) : List Nat → Nat → Int → Nat × Int
  | [], cursorIndex, rest => (cursorIndex, rest)
  | c :: data, cursorIndex, rest =>
    if c = 0 then (cursorIndex, rest)
    else
      let w : Nat := getCharWidth c % 256
      if rest < (w : Int) then (cursorIndex, rest)
      else cursorWalk getCharWidth data (cursorIndex + 1) (rest - (w : Int))

/-- Lines 108-127. -/
def setCursorPos (getCharWidth : Nat → Nat) (kb : State) (x : Int) :
    State × List Call :=
  match kb.field with
  | none => (kb, [])
  | some data =>
    let r := cursorWalk getCharWidth data 0 x
    ({ kb with cursorIndex := r.1, cursorPos := x - r.2 }, [Call.fieldInvalidate])

/-! ## `paint` (lines 129-164) -/

/-- Drawing calls on the bitmap buffer. -/
inductive Draw
  | clear
  | bitmapPattern (x y : Int) (bmp : Bitmap)
  | solidFilledRect (x y w h : Int)
  | text (x y : Int)
  | sizedText (x y : Int) (c : Nat)
  deriving DecidableEq, Repr

/-- The `while (*c)` loop of lines 138-162 for one row: the drawing calls
and the value of `x` at loop exit. -/
def paintRow (y : Int) : List Nat → Int → Option (List Draw × Int)
  | [], x => some ([], x)
  | c :: cs, x =>
    if c = 0 then
      some ([], x)
    else if c = 32 then
      paintRow y cs (x + 15)
    else if c = KEYBOARD_SPACE then
      (paintRow y cs (x + 135)).map fun r =>
        (Draw.bitmapPattern x y Bitmap.LBM_KEY_SPACEBAR :: r.1, r.2)
    else if c = KEYBOARD_ENTER then
      (paintRow y cs (x + 80)).map fun r =>
        (Draw.solidFilledRect x (y - 2) 80 25 :: Draw.text (x + 40) y :: r.1, r.2)
    else if 128 ≤ c then
      (LBM_SPECIAL_KEYS[(c - 128) % 256]?).bind fun bmp =>
        (paintRow y cs (x + 45)).map fun r => (Draw.bitmapPattern x y bmp :: r.1, r.2)
    else
      (paintRow y cs (x + 30)).map fun r => (Draw.sizedText x y c :: r.1, r.2)

/-- The `for` loop of lines 134-163 from row `i` on, `n` rows left. -/
def paintRows (layout : List (List Nat)) : Nat → Nat → Option (List Draw)
  | 0, _ => some []
  | n + 1, i =>
    (layout[i]?).bind fun c =>
      (paintRow (15 + (i : Int) * 40) c 15).bind fun r =>
        (paintRows layout n (i + 1)).map fun ds => r.1 ++ ds

/-- Lines 129-164. -/
def paint (kb : State) : Option (List Draw) :=
  (paintRows kb.layout 4 0).map fun ds => Draw.clear :: ds

/-! ## `onTouchEnd` (lines 166-238) -/

/-- How the `while (*key)` loop of lines 180-228 ends. -/
inductive Hit
  | miss
  | char (c : Nat)
  | enter
  | special (specialKey : Nat)
  deriving DecidableEq, Repr

/-- The `while (*key)` loop of lines 180-228: which branch ends the loop
and the value of `x` at that point. `char c` is a `break` with `c` set
(lines 186, 222), `enter` is line 194, `special k` is the branch of line
200, `miss` is the loop running to the end of the row. -/
def keyWalk : List Nat → Int → Hit × Int
  | [], x => (Hit.miss, x)
  | k :: key, x =>
    if k = 0 then
      (Hit.miss, x)
    else if k = 32 then
      keyWalk key (x - 15)
    else if k = KEYBOARD_SPACE then
      if x ≤ 135 then (Hit.char 32, x) else keyWalk key (x - 135)
    else if k = KEYBOARD_ENTER then
      if x ≤ 80 then (Hit.enter, x) else keyWalk key (x - 80)
    else if 128 ≤ k then
      if x ≤ 45 then (Hit.special k, x) else keyWalk key (x - 45)
    else
      if x ≤ 30 then (Hit.char k, x) else keyWalk key (x - 30)

/-- Line 178: `uint8_t row = max<coord_t>(0, y - 5) / 40`. -/
def rowOf (y : Int) : Nat :=
  ((max 0 (y - 5)).toNat / 40) % 256

/-- Lines 204-210: the backspace action on the bound buffer (`data` is
`field->getData()`, `size` its length). -/
def backspace (getCharWidth : Nat → Nat) (kb : State) : Option State :=
  match kb.field with
  | none => none
  | some data =>
    let size := data.length
    if 0 < kb.cursorIndex then
      match data[kb.cursorIndex - 1]? with
      | none => none
      | some c =>
        match memmove data (kb.cursorIndex - 1) kb.cursorIndex
            ((size : Int) - (kb.cursorIndex : Int)) with
        | none => none
        | some moved =>
          match store moved (size - 1) 0 with
          | none => none
          | some data' =>
            some { kb with
              field := some data'
              cursorPos := kb.cursorPos - (getCharWidth c : Int)
              cursorIndex := kb.cursorIndex - 1 }
    else
      some kb

/-- Lines 230-237: the insert of the pending character `c` into the bound
buffer, then `field->invalidate()` and `return true`. -/
def insertStep (getCharWidth : Nat → Nat) (kb : State) (c : Nat)
    (calls : List Call) : Option Outcome :=
  match kb.field with
  | none => none
  | some data =>
    let size := data.length
    if c ≠ 0 ∧ (size : Int) - (kb.cursorIndex : Int) > 1 then
      match memmove data (kb.cursorIndex + 1) kb.cursorIndex
          ((size : Int) - (kb.cursorIndex : Int) - 1) with
      | none => none
      | some moved =>
        match store moved kb.cursorIndex c with
        | none => none
        | some data' =>
          some
            { kb := { kb with
                field := some data'
                cursorIndex := kb.cursorIndex + 1
                cursorPos := kb.cursorPos + (getCharWidth c : Int) }
              ret := true
              calls := calls ++ [Call.fieldInvalidate] }
    else
      some { kb := kb, ret := true, calls := calls ++ [Call.fieldInvalidate] }

/-- Lines 166-238. The local `c` is 0 unless the walk ends on a literal key
or the space-bar. -/
def onTouchEnd (getCharWidth : Nat → Nat) (kb : State) (x y : Int) : Option Outcome :=
  match kb.field with
  | none => some { kb := kb, ret := false, calls := [] }
  | some _ =>
    match kb.layout[rowOf y]? with
    | none => none
    | some key =>
      match (keyWalk key x).1 with
      | Hit.miss => insertStep getCharWidth kb 0 [Call.onKeyPress]
      | Hit.char c => insertStep getCharWidth kb c [Call.onKeyPress]
      | Hit.enter =>
        some { kb := kb, ret := true, calls := [Call.onKeyPress, Call.disable true] }
      | Hit.special specialKey =>
        if specialKey = 128 then
          match backspace getCharWidth kb with
          | none => none
          | some kb' => insertStep getCharWidth kb' 0 [Call.onKeyPress]
        else
          match KEYBOARD_LAYOUTS[specialKey - 129]? with
          | none => none
          | some layout =>
            insertStep getCharWidth { kb with layout := layout } 0
              [Call.onKeyPress, Call.invalidate]

/-! ## Notions used by the properties -/

/-- The content of a buffer: its bytes before the first terminator (all of
them when there is none). -/
def content (data : List Nat) : List Nat :=
  data.takeWhile fun b => decide (b ≠ 0)

/-- The content length: the index of the first terminator, or the capacity
when there is none. -/
def contentLength (data : List Nat) : Nat :=
  (content data).length

/-- The sum of the glyph widths of `data[0..n)`. -/
def widthSum (getCharWidth : Nat → Nat) (data : List Nat) (n : Nat) : Int :=
  (((data.take n).map getCharWidth).sum : Nat)

/-- The key action a touch at `(x, y)` selects in `layout`: the row lookup of
lines 178-179 followed by the walk of lines 180-228. -/
def keyHit (layout : List (List Nat)) (x y : Int) : Option Hit :=
  (layout[rowOf y]?).map fun key => (keyWalk key x).1

/-- The buffer after the insert of lines 231-232 at index `i`. -/
def inserted (data : List Nat) (i c : Nat) : List Nat :=
  data.take i ++ c :: (data.drop i).dropLast

/-- The buffer after the removal of lines 206-207 before index `i`. -/
def removed (data : List Nat) (i : Nat) : List Nat :=
  data.take (i - 1) ++ data.drop i ++ [0]

/-- The walk of `setCursorPos` towards the target `x` stops at index `i`:
`i` is the content length, or the glyph at `i` is wider than `x` minus the
widths of the glyphs before it. -/
def stopsAt (getCharWidth : Nat → Nat) (data : List Nat) (x : Int) (i : Nat) : Prop :=
  i = contentLength data ∨
    ∃ b, data[i]? = some b ∧ x - widthSum getCharWidth data i < (getCharWidth b : Int)

/-- The pixel width classes of the key tokens in the words of the
specification: blank 15, space-bar 135, enter 80, control 45, literal 30. -/
def specTokenWidth (k : Nat) : Int :=
  if k = 32 then 15
  else if k = KEYBOARD_SPACE then 135
  else if k = KEYBOARD_ENTER then 80
  else if 128 ≤ k then 45
  else 30

/-- The total width of a row in the words of the specification. -/
def specRowWidth (row : List Nat) : Int :=
  (row.map specTokenWidth).sum

/-- The token is a literal key: it reaches the last branch of the walks of
lines 138-162 and 180-228 (not the terminator, a blank, the space-bar, enter
or a control byte). -/
def isLiteral (k : Nat) : Bool :=
  k != 0 && k != 32 && k != KEYBOARD_SPACE && k != KEYBOARD_ENTER && decide (k < 128)

/-- The way the key walk ends on a non-blank token `k` that it hits: the
branches of lines 185-187, 192-195, 200-216 and 221-223. -/
def tokenHit (k : Nat) : Hit :=
  if k = KEYBOARD_SPACE then Hit.char 32
  else if k = KEYBOARD_ENTER then Hit.enter
  else if 128 ≤ k then Hit.special k
  else Hit.char k

/-- The drawing calls `paint` makes for the single token `k` at `(x, y)`. -/
def tokenDraws (k : Nat) (x y : Int) : List Draw :=
  ((paintRow y [k] x).map fun r => r.1).getD []

/-! ## Memory lemmas -/

theorem memmove_store_insert (data : List Nat) (i c : Nat) (h : i + 1 < data.length) :
    ∃ moved, memmove data (i + 1) i ((data.length : Int) - (i : Int) - 1) = some moved ∧
      store moved i c = some (inserted data i c) := by
  have hn : ((data.length : Int) - (i : Int) - 1).toNat = data.length - i - 1 := by omega
  have hc : 0 ≤ (data.length : Int) - (i : Int) - 1 ∧
      i + ((data.length : Int) - (i : Int) - 1).toNat ≤ data.length ∧
      i + 1 + ((data.length : Int) - (i : Int) - 1).toNat ≤ data.length := by
    rw [hn]; omega
  refine ⟨_, by rw [memmove, if_pos hc], ?_⟩
  rw [hn]
  have hd : data.drop (i + 1 + (data.length - i - 1)) = [] := by
    apply List.drop_eq_nil_of_le; omega
  have ht : data.take (i + 1) = data.take i ++ [data[i]] := by
    rw [List.take_succ]; simp [List.getElem?_eq_getElem (show i < data.length by omega)]
  have hl : (data.take i).length = i := by simp; omega
  rw [hd, ht, store, if_pos (by simp; omega)]
  simp only [List.append_assoc, List.append_nil, inserted]
  congr 1
  rw [List.set_append_right _ _ (by omega)]
  simp [hl, List.dropLast_eq_take]

theorem memmove_store_remove (data : List Nat) (i : Nat) (h0 : 0 < i) (h : i ≤ data.length) :
    ∃ moved, memmove data (i - 1) i ((data.length : Int) - (i : Int)) = some moved ∧
      store moved (data.length - 1) 0 = some (removed data i) := by
  have hn : ((data.length : Int) - (i : Int)).toNat = data.length - i := by omega
  have hc : 0 ≤ (data.length : Int) - (i : Int) ∧
      i + ((data.length : Int) - (i : Int)).toNat ≤ data.length ∧
      i - 1 + ((data.length : Int) - (i : Int)).toNat ≤ data.length := by
    rw [hn]; omega
  refine ⟨_, by rw [memmove, if_pos hc], ?_⟩
  rw [hn]
  have h1 : (data.drop i).take (data.length - i) = data.drop i := by
    apply List.take_of_length_le; simp
  have hlen : (data.take (i - 1) ++ data.drop i).length = data.length - 1 := by
    simp; omega
  have h2 : i - 1 + (data.length - i) = data.length - 1 := by omega
  have h3 : ∃ b, data.drop (data.length - 1) = [b] := by
    have : (data.drop (data.length - 1)).length = 1 := by simp; omega
    match hh : data.drop (data.length - 1), this with
    | [b], _ => exact ⟨b, rfl⟩
  obtain ⟨b, hb⟩ := h3
  rw [h1, h2, hb, store, if_pos (by simp; omega)]
  rw [List.set_append_right _ _ (by omega)]
  simp [hlen, removed]

/-! ## Content lemmas -/

theorem content_nil : content [] = [] := rfl

theorem content_cons_zero (l : List Nat) : content (0 :: l) = [] := by
  simp [content]

theorem content_cons_ne (b : Nat) (l : List Nat) (h : b ≠ 0) :
    content (b :: l) = b :: content l := by
  simp [content, h]

theorem content_append_of_ne (pre post : List Nat) (h : ∀ b ∈ pre, b ≠ 0) :
    content (pre ++ post) = pre ++ content post := by
  induction pre with
  | nil => rfl
  | cons b pre ih =>
    have hb : b ≠ 0 := h b (List.mem_cons_self _ _)
    rw [List.cons_append, content_cons_ne _ _ hb, ih fun a ha => h a (List.mem_cons_of_mem _ ha)]
    rfl

theorem content_ne_zero (data : List Nat) : ∀ b ∈ content data, b ≠ 0 := by
  intro b hb
  have := List.mem_takeWhile_imp hb
  simpa using this

theorem contentLength_le (data : List Nat) : contentLength data ≤ data.length := by
  unfold contentLength content
  exact (List.takeWhile_sublist _).length_le

theorem take_content (data : List Nat) :
    ∀ i, i ≤ contentLength data → (content data).take i = data.take i := by
  induction data with
  | nil => intro i _; simp [content]
  | cons b data ih =>
    intro i hi
    by_cases hb : b = 0
    · subst hb
      simp [contentLength, content_cons_zero] at hi
      subst hi; simp
    · rw [content_cons_ne _ _ hb]
      cases i with
      | zero => simp
      | succ i =>
        simp only [List.take_succ_cons]
        rw [ih i (by simpa [contentLength, content_cons_ne _ _ hb] using hi)]

theorem take_ne_zero (data : List Nat) (i : Nat) (hi : i ≤ contentLength data) :
    ∀ b ∈ data.take i, b ≠ 0 := by
  intro b hb
  rw [← take_content data i hi] at hb
  exact content_ne_zero data b (List.mem_of_mem_take hb)

theorem content_split (data : List Nat) (i : Nat) (hi : i ≤ contentLength data) :
    content data = data.take i ++ content (data.drop i) := by
  conv_lhs => rw [← List.take_append_drop i data]
  exact content_append_of_ne _ _ (take_ne_zero data i hi)

theorem content_append_zero (l : List Nat) : content (l ++ [0]) = content l := by
  induction l with
  | nil => simp [content]
  | cons b l ih =>
    by_cases hb : b = 0
    · subst hb; simp [content_cons_zero]
    · rw [List.cons_append, content_cons_ne _ _ hb, content_cons_ne _ _ hb, ih]

theorem content_dropLast_append_zero (l : List Nat) (h : 0 ∈ l) :
    content (l.dropLast ++ [0]) = content l := by
  induction l with
  | nil => simp at h
  | cons b l ih =>
    by_cases hb : b = 0
    · subst hb
      cases l with
      | nil => simp [content]
      | cons a l => simp [content_cons_zero]
    · have hl : 0 ∈ l := by
        rcases List.mem_cons.mp h with h | h
        · exact absurd h.symm hb
        · exact h
      cases l with
      | nil => simp at hl
      | cons a l =>
        rw [List.dropLast_cons₂, List.cons_append, content_cons_ne _ _ hb,
          content_cons_ne _ _ hb, ih hl]

theorem content_dropLast (l : List Nat) (h : contentLength l + 1 < l.length) :
    content l.dropLast = content l := by
  induction l with
  | nil => simp at h
  | cons b l ih =>
    by_cases hb : b = 0
    · subst hb
      cases l with
      | nil => simp at h
      | cons a l => simp [content_cons_zero]
    · cases l with
      | nil => simp [contentLength, content_cons_ne _ _ hb, content] at h
      | cons a l =>
        rw [List.dropLast_cons₂, content_cons_ne _ _ hb, content_cons_ne _ _ hb, ih]
        simpa [contentLength, content_cons_ne _ _ hb] using h

theorem mem_of_contentLength_lt (data : List Nat) (h : contentLength data < data.length) :
    0 ∈ data := by
  induction data with
  | nil => simp at h
  | cons b data ih =>
    by_cases hb : b = 0
    · subst hb; simp
    · right
      apply ih
      simpa [contentLength, content_cons_ne _ _ hb] using h

theorem contentLength_lt_of_mem (data : List Nat) (h : 0 ∈ data) :
    contentLength data < data.length := by
  induction data with
  | nil => simp at h
  | cons b data ih =>
    by_cases hb : b = 0
    · subst hb; simp [contentLength, content_cons_zero]
    · have : 0 ∈ data := by
        rcases List.mem_cons.mp h with h | h
        · exact absurd h.symm hb
        · exact h
      simpa [contentLength, content_cons_ne _ _ hb] using ih this

/-! ## The buffer after an insert or a removal -/

theorem inserted_length (data : List Nat) (i c : Nat) (h : i + 1 < data.length) :
    (inserted data i c).length = data.length := by
  simp [inserted]; omega

theorem removed_length (data : List Nat) (i : Nat) (h0 : 0 < i) (h : i ≤ data.length) :
    (removed data i).length = data.length := by
  simp [removed]; omega

theorem content_inserted (data : List Nat) (i c : Nat) (hc : c ≠ 0)
    (hi : i ≤ contentLength data) :
    content (inserted data i c) = data.take i ++ c :: content (data.drop i).dropLast := by
  unfold inserted
  rw [content_append_of_ne _ _ (take_ne_zero data i hi), content_cons_ne _ _ hc]

theorem content_removed (data : List Nat) (i : Nat) (hi : i ≤ contentLength data) :
    content (removed data i) = data.take (i - 1) ++ content (data.drop i) := by
  unfold removed
  rw [List.append_assoc, content_append_of_ne _ _ (take_ne_zero data (i - 1) (by omega)),
    content_append_zero]

theorem contentLength_drop (data : List Nat) (i : Nat) (hi : i ≤ contentLength data) :
    contentLength (data.drop i) = contentLength data - i := by
  have h := congrArg List.length (content_split data i hi)
  have hl := contentLength_le data
  simp only [List.length_append, List.length_take] at h
  unfold contentLength at *
  omega

theorem take_inserted (data : List Nat) (i c : Nat) (h : i ≤ data.length) :
    (inserted data i c).take (i + 1) = data.take i ++ [c] := by
  unfold inserted
  have hl : (data.take i).length = i := by simp; omega
  rw [List.take_append_eq_append_take, hl]
  simp [List.take_of_length_le, hl]

theorem take_removed (data : List Nat) (i : Nat) (h : i ≤ data.length) :
    (removed data i).take (i - 1) = data.take (i - 1) := by
  unfold removed
  have hl : (data.take (i - 1)).length = i - 1 := by simp; omega
  rw [List.append_assoc, List.take_append_eq_append_take, hl]
  simp [List.take_of_length_le, hl]

theorem widthSum_inserted (gw : Nat → Nat) (data : List Nat) (i c : Nat)
    (h : i ≤ data.length) :
    widthSum gw (inserted data i c) (i + 1) = widthSum gw data i + (gw c : Int) := by
  unfold widthSum
  rw [take_inserted data i c h]
  simp

theorem widthSum_succ (gw : Nat → Nat) (data : List Nat) (i b : Nat)
    (hb : data[i]? = some b) :
    widthSum gw data (i + 1) = widthSum gw data i + (gw b : Int) := by
  unfold widthSum
  rw [List.take_succ, hb]
  simp

theorem widthSum_removed (gw : Nat → Nat) (data : List Nat) (i b : Nat) (h0 : 0 < i)
    (hb : data[i - 1]? = some b) :
    widthSum gw (removed data i) (i - 1) = widthSum gw data i - (gw b : Int) := by
  have hlt : i - 1 < data.length := (List.getElem?_eq_some.mp hb).1
  have h1 := widthSum_succ gw data (i - 1) b hb
  rw [show i - 1 + 1 = i by omega] at h1
  rw [h1]
  unfold widthSum
  rw [take_removed data i (by omega)]
  ring

/-! ## The key walk -/

theorem keyWalk_char_ne_zero (key : List Nat) :
    ∀ (x : Int) (c : Nat), (keyWalk key x).1 = Hit.char c → c ≠ 0 := by
  induction key with
  | nil => intro x c h; simp [keyWalk] at h
  | cons k key ih =>
    intro x c h
    unfold keyWalk at h
    split_ifs at h with h0 h1 h2 h3 h4 h5 h6 h7 h8
    all_goals first
      | exact ih _ c h
      | (simp at h; omega)

theorem keyWalk_special_mem (key : List Nat) :
    ∀ (x : Int) (k : Nat), (keyWalk key x).1 = Hit.special k → k ∈ key ∧ 128 ≤ k := by
  induction key with
  | nil => intro x c h; simp [keyWalk] at h
  | cons k key ih =>
    intro x c h
    unfold keyWalk at h
    split_ifs at h with h0 h1 h2 h3 h4 h5 h6 h7 h8
    all_goals first
      | exact ⟨List.mem_cons_of_mem _ (ih _ c h).1, (ih _ c h).2⟩
      | (simp at h; subst h; exact ⟨List.mem_cons_self _ _, by omega⟩)

theorem keyHit_eq_some (layout : List (List Nat)) (x y : Int) (h : Hit) :
    keyHit layout x y = some h ↔
      ∃ key, layout[rowOf y]? = some key ∧ (keyWalk key x).1 = h := by
  simp [keyHit]

/-! ## `onTouchEnd` by key action -/

theorem insertStep_zero (gw : Nat → Nat) (kb : State) (data : List Nat) (calls : List Call)
    (hf : kb.field = some data) :
    insertStep gw kb 0 calls =
      some { kb := kb, ret := true, calls := calls ++ [Call.fieldInvalidate] } := by
  simp [insertStep, hf]

theorem insertStep_full (gw : Nat → Nat) (kb : State) (data : List Nat) (c : Nat)
    (calls : List Call) (hf : kb.field = some data)
    (h : data.length ≤ kb.cursorIndex + 1) :
    insertStep gw kb c calls =
      some { kb := kb, ret := true, calls := calls ++ [Call.fieldInvalidate] } := by
  have : ¬ (c ≠ 0 ∧ (data.length : Int) - (kb.cursorIndex : Int) > 1) := by omega
  simp only [insertStep, hf, if_neg this]

theorem insertStep_room (gw : Nat → Nat) (kb : State) (data : List Nat) (c : Nat)
    (calls : List Call) (hf : kb.field = some data) (hc : c ≠ 0)
    (h : kb.cursorIndex + 1 < data.length) :
    insertStep gw kb c calls =
      some { kb := { kb with
               field := some (inserted data kb.cursorIndex c)
               cursorIndex := kb.cursorIndex + 1
               cursorPos := kb.cursorPos + (gw c : Int) }
             ret := true
             calls := calls ++ [Call.fieldInvalidate] } := by
  have hg : c ≠ 0 ∧ (data.length : Int) - (kb.cursorIndex : Int) > 1 := ⟨hc, by omega⟩
  obtain ⟨moved, hm, hs⟩ := memmove_store_insert data kb.cursorIndex c h
  simp only [insertStep, hf, if_pos hg, hm, hs]

theorem backspace_zero (gw : Nat → Nat) (kb : State) (data : List Nat)
    (hf : kb.field = some data) (h0 : kb.cursorIndex = 0) :
    backspace gw kb = some kb := by
  simp [backspace, hf, h0]

theorem backspace_pos (gw : Nat → Nat) (kb : State) (data : List Nat) (b : Nat)
    (hf : kb.field = some data) (h0 : 0 < kb.cursorIndex)
    (hb : data[kb.cursorIndex - 1]? = some b) :
    backspace gw kb =
      some { kb with
        field := some (removed data kb.cursorIndex)
        cursorPos := kb.cursorPos - (gw b : Int)
        cursorIndex := kb.cursorIndex - 1 } := by
  have hlt : kb.cursorIndex - 1 < data.length := (List.getElem?_eq_some.mp hb).1
  obtain ⟨moved, hm, hs⟩ := memmove_store_remove data kb.cursorIndex h0 (by omega)
  simp only [backspace, hf, if_pos h0, hb, hm, hs]

theorem onTouchEnd_miss (gw : Nat → Nat) (kb : State) (data : List Nat) (x y : Int)
    (hf : kb.field = some data) (hk : keyHit kb.layout x y = some Hit.miss) :
    onTouchEnd gw kb x y =
      some { kb := kb, ret := true, calls := [Call.onKeyPress, Call.fieldInvalidate] } := by
  obtain ⟨key, hrow, hw⟩ := (keyHit_eq_some _ _ _ _).mp hk
  simp only [onTouchEnd, hf, hrow, hw, insertStep_zero gw kb data _ hf]
  rfl

theorem onTouchEnd_enter (gw : Nat → Nat) (kb : State) (data : List Nat) (x y : Int)
    (hf : kb.field = some data) (hk : keyHit kb.layout x y = some Hit.enter) :
    onTouchEnd gw kb x y =
      some { kb := kb, ret := true, calls := [Call.onKeyPress, Call.disable true] } := by
  obtain ⟨key, hrow, hw⟩ := (keyHit_eq_some _ _ _ _).mp hk
  simp only [onTouchEnd, hf, hrow, hw]

theorem onTouchEnd_char_full (gw : Nat → Nat) (kb : State) (data : List Nat) (x y : Int)
    (c : Nat) (hf : kb.field = some data) (hk : keyHit kb.layout x y = some (Hit.char c))
    (h : data.length ≤ kb.cursorIndex + 1) :
    onTouchEnd gw kb x y =
      some { kb := kb, ret := true, calls := [Call.onKeyPress, Call.fieldInvalidate] } := by
  obtain ⟨key, hrow, hw⟩ := (keyHit_eq_some _ _ _ _).mp hk
  simp only [onTouchEnd, hf, hrow, hw, insertStep_full gw kb data c _ hf h]
  rfl

theorem onTouchEnd_char_room (gw : Nat → Nat) (kb : State) (data : List Nat) (x y : Int)
    (c : Nat) (hf : kb.field = some data) (hk : keyHit kb.layout x y = some (Hit.char c))
    (h : kb.cursorIndex + 1 < data.length) :
    onTouchEnd gw kb x y =
      some { kb := { kb with
               field := some (inserted data kb.cursorIndex c)
               cursorIndex := kb.cursorIndex + 1
               cursorPos := kb.cursorPos + (gw c : Int) }
             ret := true
             calls := [Call.onKeyPress, Call.fieldInvalidate] } := by
  obtain ⟨key, hrow, hw⟩ := (keyHit_eq_some _ _ _ _).mp hk
  have hc := keyWalk_char_ne_zero key x c hw
  simp only [onTouchEnd, hf, hrow, hw, insertStep_room gw kb data c _ hf hc h]
  rfl

theorem onTouchEnd_backspace_zero (gw : Nat → Nat) (kb : State) (data : List Nat)
    (x y : Int) (hf : kb.field = some data)
    (hk : keyHit kb.layout x y = some (Hit.special KEYBOARD_BACKSPACE))
    (h0 : kb.cursorIndex = 0) :
    onTouchEnd gw kb x y =
      some { kb := kb, ret := true, calls := [Call.onKeyPress, Call.fieldInvalidate] } := by
  obtain ⟨key, hrow, hw⟩ := (keyHit_eq_some _ _ _ _).mp hk
  simp only [onTouchEnd, hf, hrow, hw, backspace_zero gw kb data hf h0,
    insertStep_zero gw kb data _ hf]
  rfl

theorem onTouchEnd_backspace_pos (gw : Nat → Nat) (kb : State) (data : List Nat)
    (x y : Int) (b : Nat) (hf : kb.field = some data)
    (hk : keyHit kb.layout x y = some (Hit.special KEYBOARD_BACKSPACE))
    (h0 : 0 < kb.cursorIndex) (hb : data[kb.cursorIndex - 1]? = some b) :
    onTouchEnd gw kb x y =
      some { kb := { kb with
               field := some (removed data kb.cursorIndex)
               cursorPos := kb.cursorPos - (gw b : Int)
               cursorIndex := kb.cursorIndex - 1 }
             ret := true
             calls := [Call.onKeyPress, Call.fieldInvalidate] } := by
  obtain ⟨key, hrow, hw⟩ := (keyHit_eq_some _ _ _ _).mp hk
  simp only [onTouchEnd, hf, hrow, hw, backspace_pos gw kb data b hf h0 hb]
  rw [if_pos trivial, insertStep_zero gw _ (removed data kb.cursorIndex) _ rfl]
  rfl

theorem onTouchEnd_switch (gw : Nat → Nat) (kb : State) (data : List Nat)
    (x y : Int) (k : Nat) (layout : List (List Nat)) (hf : kb.field = some data)
    (hk : keyHit kb.layout x y = some (Hit.special k)) (hne : k ≠ 128)
    (hl : KEYBOARD_LAYOUTS[k - 129]? = some layout) :
    onTouchEnd gw kb x y =
      some { kb := { kb with layout := layout }
             ret := true
             calls := [Call.onKeyPress, Call.invalidate, Call.fieldInvalidate] } := by
  obtain ⟨key, hrow, hw⟩ := (keyHit_eq_some _ _ _ _).mp hk
  simp only [onTouchEnd, hf, hrow, hw, if_neg hne, hl]
  rw [insertStep_zero gw _ data _ rfl]
  rfl

/-! ## The layout tables -/

theorem layouts_length : ∀ layout ∈ KEYBOARD_LAYOUTS, layout.length = 4 := by
  decide

theorem layouts_special_le :
    ∀ layout ∈ KEYBOARD_LAYOUTS, ∀ key ∈ layout, ∀ k ∈ key, 128 ≤ k → k ≤ 132 := by
  decide

theorem layouts_ne_zero :
    ∀ layout ∈ KEYBOARD_LAYOUTS, ∀ key ∈ layout, ∀ k ∈ key, k ≠ 0 := by
  decide

theorem layouts_getElem (k : Nat) (h1 : 129 ≤ k) (h2 : k ≤ 132) :
    ∃ layout, KEYBOARD_LAYOUTS[k - 129]? = some layout ∧ layout ∈ KEYBOARD_LAYOUTS := by
  interval_cases k <;> simp [KEYBOARD_LAYOUTS]

theorem layouts_row (layout : List (List Nat)) (hl : layout ∈ KEYBOARD_LAYOUTS) (i : Nat)
    (hi : i < 4) : ∃ key, layout[i]? = some key ∧ key ∈ layout := by
  have h4 := layouts_length layout hl
  have hlt : i < layout.length := by omega
  exact ⟨layout[i], List.getElem?_eq_getElem hlt, List.getElem_mem hlt⟩

/-! ## Every touch on a bound field has an outcome -/

theorem onTouchEnd_cases (gw : Nat → Nat) (kb : State) (data : List Nat) (x y : Int)
    (hf : kb.field = some data) (hci : kb.cursorIndex ≤ data.length)
    (hl : kb.layout ∈ KEYBOARD_LAYOUTS) (hy : rowOf y < 4) :
    ∃ o, onTouchEnd gw kb x y = some o ∧
      (o.kb = kb ∨
       (∃ layout ∈ KEYBOARD_LAYOUTS, o.kb = { kb with layout := layout }) ∨
       (∃ c, c ≠ 0 ∧ kb.cursorIndex + 1 < data.length ∧
          o.kb = { kb with
            field := some (inserted data kb.cursorIndex c)
            cursorIndex := kb.cursorIndex + 1
            cursorPos := kb.cursorPos + (gw c : Int) }) ∨
       (∃ b, 0 < kb.cursorIndex ∧ data[kb.cursorIndex - 1]? = some b ∧
          o.kb = { kb with
            field := some (removed data kb.cursorIndex)
            cursorPos := kb.cursorPos - (gw b : Int)
            cursorIndex := kb.cursorIndex - 1 })) := by
  obtain ⟨key, hrow, hmem⟩ := layouts_row kb.layout hl (rowOf y) hy
  have hk : keyHit kb.layout x y = some (keyWalk key x).1 := by simp [keyHit, hrow]
  cases hh : (keyWalk key x).1 with
  | miss =>
    rw [hh] at hk
    exact ⟨_, onTouchEnd_miss gw kb data x y hf hk, Or.inl rfl⟩
  | enter =>
    rw [hh] at hk
    exact ⟨_, onTouchEnd_enter gw kb data x y hf hk, Or.inl rfl⟩
  | char c =>
    rw [hh] at hk
    by_cases hroom : kb.cursorIndex + 1 < data.length
    · exact ⟨_, onTouchEnd_char_room gw kb data x y c hf hk hroom,
        Or.inr (Or.inr (Or.inl ⟨c, keyWalk_char_ne_zero key x c hh, hroom, rfl⟩))⟩
    · exact ⟨_, onTouchEnd_char_full gw kb data x y c hf hk (by omega), Or.inl rfl⟩
  | special k =>
    rw [hh] at hk
    obtain ⟨hkmem, hk128⟩ := keyWalk_special_mem key x k hh
    have hk132 := layouts_special_le kb.layout hl key hmem k hkmem hk128
    by_cases hbs : k = 128
    · subst hbs
      by_cases h0 : kb.cursorIndex = 0
      · exact ⟨_, onTouchEnd_backspace_zero gw kb data x y hf hk h0, Or.inl rfl⟩
      · have hlt : kb.cursorIndex - 1 < data.length := by omega
        have hb : data[kb.cursorIndex - 1]? = some data[kb.cursorIndex - 1] :=
          List.getElem?_eq_getElem hlt
        exact ⟨_, onTouchEnd_backspace_pos gw kb data x y _ hf hk (by omega) hb,
          Or.inr (Or.inr (Or.inr ⟨_, by omega, hb, rfl⟩))⟩
    · obtain ⟨layout, hget, hin⟩ := layouts_getElem k (by omega) hk132
      exact ⟨_, onTouchEnd_switch gw kb data x y k layout hf hk hbs hget,
        Or.inr (Or.inl ⟨layout, hin, rfl⟩)⟩

/-! ## The cursor walk -/

theorem widthSum_zero (gw : Nat → Nat) (data : List Nat) : widthSum gw data 0 = 0 := by
  simp [widthSum]

theorem widthSum_cons (gw : Nat → Nat) (c : Nat) (data : List Nat) (n : Nat) :
    widthSum gw (c :: data) (n + 1) = (gw c : Int) + widthSum gw data n := by
  simp [widthSum]

theorem cursorWalk_spec (gw : Nat → Nat) (hw : ∀ c, gw c < 256) (l : List Nat) :
    ∀ (i : Nat) (rest : Int), ∃ n,
      cursorWalk gw l i rest = (i + n, rest - widthSum gw l n) ∧
      n ≤ contentLength l ∧
      (∀ j, j < n → ∃ b, l[j]? = some b ∧ (gw b : Int) ≤ rest - widthSum gw l j) ∧
      (n = contentLength l ∨
        ∃ b, l[n]? = some b ∧ rest - widthSum gw l n < (gw b : Int)) ∧
      (0 ≤ rest → widthSum gw l n ≤ rest) ∧
      (rest < 0 → n = 0) := by
  induction l with
  | nil =>
    intro i rest
    refine ⟨0, by simp [cursorWalk, widthSum_zero], by simp, by simp,
      Or.inl (by simp [contentLength, content]), by simp [widthSum_zero], by simp⟩
  | cons c l ih =>
    intro i rest
    by_cases hc : c = 0
    · subst hc
      refine ⟨0, by simp [cursorWalk, widthSum_zero], by simp, by simp,
        Or.inl (by simp [contentLength, content_cons_zero]), by simp [widthSum_zero], by simp⟩
    · have hmod : gw c % 256 = gw c := Nat.mod_eq_of_lt (hw c)
      by_cases hr : rest < (gw c : Int)
      · refine ⟨0, by simp [cursorWalk, widthSum_zero, hc, hmod, hr], by simp, by simp,
          Or.inr ⟨c, by simp, by simpa [widthSum_zero] using hr⟩,
          by simp [widthSum_zero], by simp⟩
      · obtain ⟨n, hwalk, hle, hpass, hstop, hnn, _⟩ := ih (i + 1) (rest - (gw c : Int))
        refine ⟨n + 1, ?_, ?_, ?_, ?_, ?_, ?_⟩
        · rw [cursorWalk, if_neg hc]
          simp only [hmod, if_neg hr, hwalk, widthSum_cons]
          congr 1
          · omega
          · ring
        · simpa [contentLength, content_cons_ne _ _ hc] using hle
        · intro j hj
          cases j with
          | zero => exact ⟨c, by simp, by simp [widthSum_zero]; omega⟩
          | succ j =>
            obtain ⟨b, hb, hbw⟩ := hpass j (by omega)
            refine ⟨b, by simpa using hb, ?_⟩
            rw [widthSum_cons]; omega
        · rcases hstop with h | ⟨b, hb, hbw⟩
          · left; simp [contentLength, content_cons_ne _ _ hc]; exact h
          · right
            refine ⟨b, by simpa using hb, ?_⟩
            rw [widthSum_cons]; omega
        · intro h0
          rw [widthSum_cons]
          have := hnn (by omega)
          omega
        · intro hneg
          have : (0 : Int) ≤ (gw c : Int) := Int.ofNat_nonneg _
          omega

/-! ## More on edited buffers and the cursor walk -/

theorem inserted_getElem (data : List Nat) (i c : Nat) (h : i ≤ data.length) :
    (inserted data i c)[i]? = some c := by
  have hl : (data.take i).length = i := by simp; omega
  unfold inserted
  rw [List.getElem?_append_right (by omega)]
  simp [hl]

theorem removed_inserted (data : List Nat) (i c : Nat) (h : i + 1 < data.length) :
    removed (inserted data i c) (i + 1) = data.dropLast ++ [0] := by
  have hl : (data.take i).length = i := by simp; omega
  have hne : data.drop i ≠ [] := by
    intro hnil
    have := congrArg List.length hnil
    simp at this; omega
  have h1 : (inserted data i c).take i = data.take i := by
    unfold inserted
    rw [List.take_append_eq_append_take, hl]; simp [hl]
  have h2 : (inserted data i c).drop (i + 1) = (data.drop i).dropLast := by
    unfold inserted
    rw [List.drop_append_eq_append_drop, hl]
    simp [List.drop_eq_nil_of_le, hl]
  unfold removed
  rw [Nat.add_sub_cancel, h1, h2, ← List.dropLast_append_of_ne_nil _ hne,
    List.take_append_drop]

theorem cursorWalk_index_le (gw : Nat → Nat) (l : List Nat) :
    ∀ (i : Nat) (rest : Int), ∃ n,
      (cursorWalk gw l i rest).1 = i + n ∧ n ≤ contentLength l := by
  induction l with
  | nil => intro i rest; exact ⟨0, by simp [cursorWalk], by simp⟩
  | cons c l ih =>
    intro i rest
    by_cases hc : c = 0
    · exact ⟨0, by simp [cursorWalk, hc], by simp⟩
    · by_cases hr : rest < ((gw c % 256 : Nat) : Int)
      · refine ⟨0, ?_, by simp⟩
        rw [cursorWalk, if_neg hc]
        simp only [if_pos hr, Nat.add_zero]
      · obtain ⟨n, hn, hle⟩ := ih (i + 1) (rest - ((gw c % 256 : Nat) : Int))
        refine ⟨n + 1, ?_, by simpa [contentLength, content_cons_ne _ _ hc] using hle⟩
        rw [cursorWalk, if_neg hc]
        simp only [if_neg hr, hn]
        omega

theorem setCursorPos_bound (gw : Nat → Nat) (kb : State) (data : List Nat) (x : Int)
    (hf : kb.field = some data) :
    setCursorPos gw kb x =
      ({ kb with
          cursorIndex := (cursorWalk gw data 0 x).1
          cursorPos := x - (cursorWalk gw data 0 x).2 }, [Call.fieldInvalidate]) := by
  simp only [setCursorPos, hf]

theorem contentLength_inserted (data : List Nat) (i c : Nat) (hc : c ≠ 0)
    (hi : i ≤ contentLength data) : i + 1 ≤ contentLength (inserted data i c) := by
  have hl := contentLength_le data
  unfold contentLength at *
  rw [content_inserted data i c hc hi]
  simp; omega

theorem contentLength_removed (data : List Nat) (i : Nat)
    (hi : i ≤ contentLength data) : i - 1 ≤ contentLength (removed data i) := by
  have hl := contentLength_le data
  unfold contentLength at *
  rw [content_removed data i hi]
  simp; omega

/-! ## Widths walked by `paint` and by the key walk -/

theorem specTokenWidth_pos (k : Nat) : 0 < specTokenWidth k := by
  unfold specTokenWidth
  split_ifs <;> norm_num

theorem specRowWidth_nil : specRowWidth [] = 0 := rfl

theorem specRowWidth_cons (k : Nat) (row : List Nat) :
    specRowWidth (k :: row) = specTokenWidth k + specRowWidth row := by
  simp [specRowWidth]

theorem specRowWidth_nonneg (row : List Nat) : 0 ≤ specRowWidth row := by
  induction row with
  | nil => simp [specRowWidth_nil]
  | cons k row ih =>
    rw [specRowWidth_cons]
    have := specTokenWidth_pos k
    omega

theorem keyWalk_pass (row : List Nat) :
    ∀ x : Int, (∀ k ∈ row, k ≠ 0) → specRowWidth row < x →
      keyWalk row x = (Hit.miss, x - specRowWidth row) := by
  induction row with
  | nil => intro x _ _; simp [keyWalk, specRowWidth_nil]
  | cons k row ih =>
    intro x h0 hx
    have hk0 : k ≠ 0 := h0 k (List.mem_cons_self _ _)
    have hrow : ∀ a ∈ row, a ≠ 0 := fun a ha => h0 a (List.mem_cons_of_mem _ ha)
    have hnn := specRowWidth_nonneg row
    rw [specRowWidth_cons] at hx ⊢
    unfold specTokenWidth at hx ⊢
    unfold keyWalk
    rw [if_neg hk0]
    split_ifs at hx ⊢ <;> first
      | omega
      | (rw [ih _ hrow (by omega)]; congr 1; ring)

theorem paintRow_advance (y : Int) (row : List Nat) :
    ∀ x : Int, (∀ k ∈ row, k ≠ 0) → (∀ k ∈ row, 128 ≤ k → k ≤ 132) →
      ∃ ds, paintRow y row x = some (ds, x + specRowWidth row) := by
  induction row with
  | nil => intro x _ _; exact ⟨[], by rw [specRowWidth_nil, add_zero]; rfl⟩
  | cons k row ih =>
    intro x h0 hs
    have hk0 : k ≠ 0 := h0 k (List.mem_cons_self _ _)
    have hrow : ∀ a ∈ row, a ≠ 0 := fun a ha => h0 a (List.mem_cons_of_mem _ ha)
    have hsrow : ∀ a ∈ row, 128 ≤ a → a ≤ 132 :=
      fun a ha => hs a (List.mem_cons_of_mem _ ha)
    rw [specRowWidth_cons]
    unfold specTokenWidth
    unfold paintRow
    rw [if_neg hk0]
    by_cases h32 : k = 32
    · obtain ⟨ds, hds⟩ := ih (x + 15) hrow hsrow
      exact ⟨ds, by rw [if_pos h32, if_pos h32, hds]; congr 2; ring⟩
    · rw [if_neg h32, if_neg h32]
      by_cases h9 : k = KEYBOARD_SPACE
      · obtain ⟨ds, hds⟩ := ih (x + 135) hrow hsrow
        exact ⟨_, by rw [if_pos h9, if_pos h9]; simp only [hds, Option.map_some']; congr 2; ring⟩
      · rw [if_neg h9, if_neg h9]
        by_cases h10 : k = KEYBOARD_ENTER
        · obtain ⟨ds, hds⟩ := ih (x + 80) hrow hsrow
          exact ⟨_, by rw [if_pos h10, if_pos h10]; simp only [hds, Option.map_some']; congr 2; ring⟩
        · rw [if_neg h10, if_neg h10]
          by_cases h128 : 128 ≤ k
          · obtain ⟨ds, hds⟩ := ih (x + 45) hrow hsrow
            have hle := hs k (List.mem_cons_self _ _) h128
            have hidx : (k - 128) % 256 < LBM_SPECIAL_KEYS.length := by
              simp [LBM_SPECIAL_KEYS]; omega
            rw [if_pos h128, if_pos h128, List.getElem?_eq_getElem hidx]
            exact ⟨_, by simp only [hds, Option.map_some', Option.some_bind]; congr 2; ring⟩
          · obtain ⟨ds, hds⟩ := ih (x + 30) hrow hsrow
            exact ⟨_, by rw [if_neg h128, if_neg h128]; simp only [hds, Option.map_some']; congr 2; ring⟩

/-! ## The content after an insert or a removal -/

theorem drop_content (data : List Nat) (i : Nat) (hi : i ≤ contentLength data) :
    (content data).drop i = content (data.drop i) := by
  have hl := contentLength_le data
  have hlen : (data.take i).length = i := by simp; omega
  rw [content_split data i hi, List.drop_append_eq_append_drop, hlen]
  simp [List.drop_eq_nil_of_le, hlen]

theorem content_inserted_room (data : List Nat) (i c : Nat) (hc : c ≠ 0)
    (hi : i ≤ contentLength data) (hlen : contentLength data + 1 < data.length) :
    content (inserted data i c) =
      (content data).take i ++ c :: (content data).drop i := by
  have hd := contentLength_drop data i hi
  rw [content_inserted data i c hc hi, take_content data i hi, drop_content data i hi,
    content_dropLast (data.drop i) (by rw [hd, List.length_drop]; omega)]

theorem content_removed_eraseIdx (data : List Nat) (i : Nat) (h0 : 0 < i)
    (hi : i ≤ contentLength data) :
    content (removed data i) = (content data).eraseIdx (i - 1) := by
  rw [content_removed data i hi, List.eraseIdx_eq_take_drop_succ,
    take_content data (i - 1) (by omega), show i - 1 + 1 = i by omega,
    drop_content data i hi]

theorem content_getElem (data : List Nat) (i : Nat) (hi : i < contentLength data) :
    ∃ b, data[i]? = some b ∧ (content data)[i]? = some b := by
  have hl := contentLength_le data
  have hlt : i < data.length := by omega
  refine ⟨data[i], List.getElem?_eq_getElem hlt, ?_⟩
  have h1 : ((content data).take (i + 1))[i]? = (content data)[i]? :=
    by rw [List.getElem?_take, if_pos (Nat.lt_succ_self i)]
  have h2 : (data.take (i + 1))[i]? = data[i]? := by
    rw [List.getElem?_take, if_pos (Nat.lt_succ_self i)]
  rw [← h1, take_content data (i + 1) (by omega), h2, List.getElem?_eq_getElem hlt]

/-! ## C1: insert into a full buffer -/

/-- C1 (counterexample): the buffer `"ab"` in 3 bytes is full (content length =
capacity - 1) and the cursor is at index 0 with `cursorPos` 0; a touch on the
literal key `q` is not dropped: it changes the buffer to the bytes `q a b`
(the terminator is shifted out), `cursorIndex` to 1 and `cursorPos` to the
width of `q`. -/
theorem insert_full_buffer_cursor_before_end :
    contentLength [97, 98, 0] = [97, 98, 0].length - 1 ∧
    keyHit KEYBOARD_LOWERCASE 10 10 = some (Hit.char 113) ∧
    onTouchEnd (fun _ => 6) ⟨some [97, 98, 0], 0, 0, KEYBOARD_LOWERCASE⟩ 10 10 =
      some ⟨⟨some [113, 97, 98], 6, 1, KEYBOARD_LOWERCASE⟩, true,
        [Call.onKeyPress, Call.fieldInvalidate]⟩ ∧
    (some [113, 97, 98] : Option (List Nat)) ≠ some [97, 98, 0] := by
  decide

/-- C1 (amended): when the content length equals capacity - 1 (buffer full)
and the cursor is at the end of the content (`cursorIndex` = content
length), a touch that hits a literal key or the space-bar leaves the buffer,
`cursorIndex`, `cursorPos` and the layout unchanged. -/
theorem insert_full_buffer_cursor_at_end (getCharWidth : Nat → Nat) (kb : State)
    (data : List Nat) (x y : Int) (c : Nat)
    (hf : kb.field = some data)
    (hfull : contentLength data + 1 = data.length)
    (hci : kb.cursorIndex = contentLength data)
    (hk : keyHit kb.layout x y = some (Hit.char c)) :
    onTouchEnd getCharWidth kb x y =
      some { kb := kb, ret := true, calls := [Call.onKeyPress, Call.fieldInvalidate] } :=
  onTouchEnd_char_full getCharWidth kb data x y c hf hk (by omega)

theorem insert_full_buffer_cursor_at_end_witness :
    contentLength [97, 98, 0] + 1 = [97, 98, 0].length ∧
    (2 : Nat) = contentLength [97, 98, 0] ∧
    keyHit KEYBOARD_LOWERCASE 10 10 = some (Hit.char 113) ∧
    onTouchEnd (fun _ => 6) ⟨some [97, 98, 0], 12, 2, KEYBOARD_LOWERCASE⟩ 10 10 =
      some ⟨⟨some [97, 98, 0], 12, 2, KEYBOARD_LOWERCASE⟩, true,
        [Call.onKeyPress, Call.fieldInvalidate]⟩ :=
  ⟨by decide, by decide, by decide,
    insert_full_buffer_cursor_at_end (fun _ => 6)
      ⟨some [97, 98, 0], 12, 2, KEYBOARD_LOWERCASE⟩ [97, 98, 0] 10 10 113 rfl
      (by decide) (by decide) (by decide)⟩

/-! ## C2: insert then backspace -/

/-- C2: on a bound field with a terminated buffer, a touch that inserts `c`
(it hits the literal key or the space-bar producing `c`, and the guard of
line 230 holds) followed by a touch that hits the backspace key restores the
content, `cursorIndex`, `cursorPos` and the layout; the buffer is the old one
with its last byte zeroed. -/
theorem insert_then_backspace_restores (getCharWidth : Nat → Nat) (kb : State)
    (data : List Nat) (x y x2 y2 : Int) (c : Nat)
    (hf : kb.field = some data)
    (hterm : 0 ∈ data)
    (hroom : kb.cursorIndex + 1 < data.length)
    (hk : keyHit kb.layout x y = some (Hit.char c))
    (hbs : keyHit kb.layout x2 y2 = some (Hit.special KEYBOARD_BACKSPACE)) :
    ∃ o1 o2 data2,
      onTouchEnd getCharWidth kb x y = some o1 ∧
      o1.kb.field = some (inserted data kb.cursorIndex c) ∧
      o1.kb.cursorIndex = kb.cursorIndex + 1 ∧
      onTouchEnd getCharWidth o1.kb x2 y2 = some o2 ∧
      o2.kb.field = some data2 ∧
      data2 = data.dropLast ++ [0] ∧
      content data2 = content data ∧
      o2.kb.cursorIndex = kb.cursorIndex ∧
      o2.kb.cursorPos = kb.cursorPos ∧
      o2.kb.layout = kb.layout := by
  have h1 := onTouchEnd_char_room getCharWidth kb data x y c hf hk hroom
  have h2 := onTouchEnd_backspace_pos getCharWidth
    { kb with
      field := some (inserted data kb.cursorIndex c)
      cursorIndex := kb.cursorIndex + 1
      cursorPos := kb.cursorPos + (getCharWidth c : Int) }
    (inserted data kb.cursorIndex c) x2 y2 c rfl hbs (Nat.succ_pos _)
    (inserted_getElem data kb.cursorIndex c (by omega))
  refine ⟨_, _, data.dropLast ++ [0], h1, rfl, rfl, h2, ?_, rfl,
    content_dropLast_append_zero data hterm, ?_, ?_, rfl⟩
  · simp only [removed_inserted data kb.cursorIndex c hroom]
  · simp
  · simp

theorem insert_then_backspace_restores_witness :
    (0 : Nat) ∈ [97, 98, 0, 0] ∧
    keyHit KEYBOARD_LOWERCASE 10 10 = some (Hit.char 113) ∧
    keyHit KEYBOARD_LOWERCASE 290 100 = some (Hit.special KEYBOARD_BACKSPACE) ∧
    ∃ o1 o2 data2,
      onTouchEnd (fun _ => 6) ⟨some [97, 98, 0, 0], 6, 1, KEYBOARD_LOWERCASE⟩ 10 10 = some o1 ∧
      o1.kb.field = some (inserted [97, 98, 0, 0] 1 113) ∧
      o1.kb.cursorIndex = 1 + 1 ∧
      onTouchEnd (fun _ => 6) o1.kb 290 100 = some o2 ∧
      o2.kb.field = some data2 ∧
      data2 = [97, 98, 0, 0].dropLast ++ [0] ∧
      content data2 = content [97, 98, 0, 0] ∧
      o2.kb.cursorIndex = 1 ∧
      o2.kb.cursorPos = 6 ∧
      o2.kb.layout = KEYBOARD_LOWERCASE :=
  ⟨by decide, by decide, by decide,
    insert_then_backspace_restores (fun _ => 6)
      ⟨some [97, 98, 0, 0], 6, 1, KEYBOARD_LOWERCASE⟩ [97, 98, 0, 0] 10 10 290 100 113 rfl
      (by decide) (by decide) (by decide) (by decide)⟩

/-! ## C3: backspace at the start -/

/-- C3: on a bound field, a touch that hits the backspace key while
`cursorIndex` is 0 leaves the buffer, `cursorIndex`, `cursorPos` and the
active layout unchanged, whatever the layout. -/
theorem backspace_at_start_unchanged (getCharWidth : Nat → Nat) (kb : State)
    (data : List Nat) (x y : Int)
    (hf : kb.field = some data)
    (h0 : kb.cursorIndex = 0)
    (hbs : keyHit kb.layout x y = some (Hit.special KEYBOARD_BACKSPACE)) :
    onTouchEnd getCharWidth kb x y =
      some { kb := kb, ret := true, calls := [Call.onKeyPress, Call.fieldInvalidate] } :=
  onTouchEnd_backspace_zero getCharWidth kb data x y hf hbs h0

theorem backspace_at_start_unchanged_witness :
    keyHit KEYBOARD_NUMBERS 290 100 = some (Hit.special KEYBOARD_BACKSPACE) ∧
    onTouchEnd (fun _ => 6) ⟨some [97, 98, 0], 0, 0, KEYBOARD_NUMBERS⟩ 290 100 =
      some ⟨⟨some [97, 98, 0], 0, 0, KEYBOARD_NUMBERS⟩, true,
        [Call.onKeyPress, Call.fieldInvalidate]⟩ :=
  ⟨by decide,
    backspace_at_start_unchanged (fun _ => 6) ⟨some [97, 98, 0], 0, 0, KEYBOARD_NUMBERS⟩
      [97, 98, 0] 290 100 rfl rfl (by decide)⟩

/-! ## C4: the cursor index stays within the content -/

/-- C4: on a bound field, `setCursorPos` leaves the buffer alone and ends with
`cursorIndex` at most the content length from any prior cursor state; and if
`cursorIndex` is at most the content length, then every `onTouchEnd(x, y)`
whose `y` selects one of the four rows of one of the layouts has an outcome in
which `cursorIndex` is again at most the content length of the resulting
buffer (and the layout is again one of the layouts). -/
theorem cursorIndex_invariant (getCharWidth : Nat → Nat) (kb : State) (data : List Nat)
    (hf : kb.field = some data) :
    (∀ x : Int,
      (setCursorPos getCharWidth kb x).1.field = some data ∧
      (setCursorPos getCharWidth kb x).1.cursorIndex ≤ contentLength data) ∧
    (kb.cursorIndex ≤ contentLength data → kb.layout ∈ KEYBOARD_LAYOUTS →
      ∀ x y : Int, rowOf y < 4 →
        ∃ o data',
          onTouchEnd getCharWidth kb x y = some o ∧
          o.kb.field = some data' ∧
          o.kb.cursorIndex ≤ contentLength data' ∧
          o.kb.layout ∈ KEYBOARD_LAYOUTS) := by
  constructor
  · intro x
    rw [setCursorPos_bound getCharWidth kb data x hf]
    obtain ⟨n, hn, hle⟩ := cursorWalk_index_le getCharWidth data 0 x
    exact ⟨hf, by simp only [hn]; omega⟩
  · intro hci hl x y hy
    have hlen := contentLength_le data
    obtain ⟨o, ho, hcase⟩ :=
      onTouchEnd_cases getCharWidth kb data x y hf (by omega) hl hy
    rcases hcase with h | ⟨layout, hin, h⟩ | ⟨c, hc, _, h⟩ | ⟨b, _, _, h⟩
    · exact ⟨o, data, ho, by rw [h]; exact hf, by rw [h]; exact hci, by rw [h]; exact hl⟩
    · exact ⟨o, data, ho, by rw [h]; exact hf, by rw [h]; exact hci, by rw [h]; exact hin⟩
    · exact ⟨o, _, ho, by rw [h], by rw [h]; exact contentLength_inserted data _ c hc hci,
        by rw [h]; exact hl⟩
    · exact ⟨o, _, ho, by rw [h], by rw [h]; exact contentLength_removed data _ hci,
        by rw [h]; exact hl⟩

theorem cursorIndex_invariant_witness :
    (⟨some [97, 98, 0], 12, 2, KEYBOARD_LOWERCASE⟩ : State).field = some [97, 98, 0] ∧
    (2 : Nat) ≤ contentLength [97, 98, 0] ∧
    KEYBOARD_LOWERCASE ∈ KEYBOARD_LAYOUTS ∧
    rowOf 100 < 4 ∧
    ((setCursorPos (fun _ => 6) ⟨some [97, 98, 0], 12, 2, KEYBOARD_LOWERCASE⟩ 7).1.field
        = some [97, 98, 0] ∧
      (setCursorPos (fun _ => 6) ⟨some [97, 98, 0], 12, 2, KEYBOARD_LOWERCASE⟩ 7).1.cursorIndex
        ≤ contentLength [97, 98, 0]) ∧
    ∃ o data',
      onTouchEnd (fun _ => 6) ⟨some [97, 98, 0], 12, 2, KEYBOARD_LOWERCASE⟩ 290 100 = some o ∧
      o.kb.field = some data' ∧
      o.kb.cursorIndex ≤ contentLength data' ∧
      o.kb.layout ∈ KEYBOARD_LAYOUTS :=
  ⟨rfl, by decide, by decide, by decide,
    (cursorIndex_invariant (fun _ => 6) ⟨some [97, 98, 0], 12, 2, KEYBOARD_LOWERCASE⟩
      [97, 98, 0] rfl).1 7,
    (cursorIndex_invariant (fun _ => 6) ⟨some [97, 98, 0], 12, 2, KEYBOARD_LOWERCASE⟩
      [97, 98, 0] rfl).2 (by decide) (by decide) 290 100 (by decide)⟩

/-! ## C5: the cursor position is the width of the text before the cursor -/

/-- C5: on a bound field, with glyph widths that fit the `uint8_t` in which
`setCursorPos` holds them, `setCursorPos` ends with `cursorPos` equal to the
sum of the glyph widths of `buffer[0..cursorIndex)`; and if that equality
holds with `cursorIndex` at most the content length, then every
`onTouchEnd(x, y)` whose `y` selects one of the four rows of one of the
layouts (insert, backspace, layout switch, enter or miss) has an outcome in
which it holds again for the resulting buffer and cursor. -/
theorem cursorPos_invariant (getCharWidth : Nat → Nat) (kb : State) (data : List Nat)
    (hf : kb.field = some data) :
    ((∀ c, getCharWidth c < 256) → ∀ x : Int,
      (setCursorPos getCharWidth kb x).1.field = some data ∧
      (setCursorPos getCharWidth kb x).1.cursorIndex ≤ contentLength data ∧
      (setCursorPos getCharWidth kb x).1.cursorPos =
        widthSum getCharWidth data (setCursorPos getCharWidth kb x).1.cursorIndex) ∧
    (kb.cursorIndex ≤ contentLength data →
      kb.cursorPos = widthSum getCharWidth data kb.cursorIndex →
      kb.layout ∈ KEYBOARD_LAYOUTS →
      ∀ x y : Int, rowOf y < 4 →
        ∃ o data',
          onTouchEnd getCharWidth kb x y = some o ∧
          o.kb.field = some data' ∧
          o.kb.cursorIndex ≤ contentLength data' ∧
          o.kb.cursorPos = widthSum getCharWidth data' o.kb.cursorIndex) := by
  constructor
  · intro hw x
    rw [setCursorPos_bound getCharWidth kb data x hf]
    obtain ⟨n, hn, hle, _⟩ := cursorWalk_spec getCharWidth hw data 0 x
    refine ⟨hf, by simp only [hn]; omega, ?_⟩
    simp only [hn, Nat.zero_add]
    omega
  · intro hci hpos hl x y hy
    have hlen := contentLength_le data
    obtain ⟨o, ho, hcase⟩ :=
      onTouchEnd_cases getCharWidth kb data x y hf (by omega) hl hy
    rcases hcase with h | ⟨layout, hin, h⟩ | ⟨c, hc, _, h⟩ | ⟨b, hb0, hb, h⟩
    · exact ⟨o, data, ho, by rw [h]; exact hf, by rw [h]; exact hci, by rw [h]; exact hpos⟩
    · exact ⟨o, data, ho, by rw [h]; exact hf, by rw [h]; exact hci, by rw [h]; exact hpos⟩
    · refine ⟨o, _, ho, by rw [h], by rw [h]; exact contentLength_inserted data _ c hc hci, ?_⟩
      rw [h]
      simp only [widthSum_inserted getCharWidth data kb.cursorIndex c (by omega), hpos]
    · refine ⟨o, _, ho, by rw [h], by rw [h]; exact contentLength_removed data _ hci, ?_⟩
      rw [h]
      simp only [widthSum_removed getCharWidth data kb.cursorIndex b hb0 hb, hpos]

theorem cursorPos_invariant_witness :
    (⟨some [97, 98, 0], 12, 2, KEYBOARD_LOWERCASE⟩ : State).field = some [97, 98, 0] ∧
    (∀ c : Nat, (fun _ => 6) c < 256) ∧
    (2 : Nat) ≤ contentLength [97, 98, 0] ∧
    (12 : Int) = widthSum (fun _ => 6) [97, 98, 0] 2 ∧
    KEYBOARD_LOWERCASE ∈ KEYBOARD_LAYOUTS ∧
    rowOf 100 < 4 ∧
    ((setCursorPos (fun _ => 6) ⟨some [97, 98, 0], 12, 2, KEYBOARD_LOWERCASE⟩ 7).1.field
        = some [97, 98, 0] ∧
      (setCursorPos (fun _ => 6) ⟨some [97, 98, 0], 12, 2, KEYBOARD_LOWERCASE⟩ 7).1.cursorIndex
        ≤ contentLength [97, 98, 0] ∧
      (setCursorPos (fun _ => 6) ⟨some [97, 98, 0], 12, 2, KEYBOARD_LOWERCASE⟩ 7).1.cursorPos
        = widthSum (fun _ => 6) [97, 98, 0]
          (setCursorPos (fun _ => 6) ⟨some [97, 98, 0], 12, 2, KEYBOARD_LOWERCASE⟩ 7).1.cursorIndex) ∧
    ∃ o data',
      onTouchEnd (fun _ => 6) ⟨some [97, 98, 0], 12, 2, KEYBOARD_LOWERCASE⟩ 290 100 = some o ∧
      o.kb.field = some data' ∧
      o.kb.cursorIndex ≤ contentLength data' ∧
      o.kb.cursorPos = widthSum (fun _ => 6) data' o.kb.cursorIndex :=
  ⟨rfl, fun _ => by simp, by decide, by decide, by decide, by decide,
    (cursorPos_invariant (fun _ => 6) ⟨some [97, 98, 0], 12, 2, KEYBOARD_LOWERCASE⟩
      [97, 98, 0] rfl).1 (fun _ => by simp) 7,
    (cursorPos_invariant (fun _ => 6) ⟨some [97, 98, 0], 12, 2, KEYBOARD_LOWERCASE⟩
      [97, 98, 0] rfl).2 (by decide) (by decide) (by decide) 290 100 (by decide)⟩

/-! ## C6: paint and hit-test walk the same widths -/

/-- C6: in every row of every layout, for every token the x-advance of `paint`
and the width the key walk of `onTouchEnd` subtracts when it passes the token
are both the width of the token's class (blank 15, space-bar 135, enter 80,
control 45, literal 30), and over the whole row both routines walk the same
total width. -/
theorem paint_touch_width_parity (layout : List (List Nat))
    (hl : layout ∈ KEYBOARD_LAYOUTS) (i : Nat) (hi : i < 4) :
    ∃ row, layout[i]? = some row ∧
      (∀ k ∈ row, ∀ px py x : Int,
        (∃ ds, paintRow py [k] px = some (ds, px + specTokenWidth k)) ∧
        (specTokenWidth k < x → keyWalk [k] x = (Hit.miss, x - specTokenWidth k))) ∧
      (∀ px py x : Int,
        (∃ ds, paintRow py row px = some (ds, px + specRowWidth row)) ∧
        (specRowWidth row < x → keyWalk row x = (Hit.miss, x - specRowWidth row))) := by
  obtain ⟨row, hrow, hmem⟩ := layouts_row layout hl i hi
  have h0 : ∀ k ∈ row, k ≠ 0 := layouts_ne_zero layout hl row hmem
  have hs : ∀ k ∈ row, 128 ≤ k → k ≤ 132 := layouts_special_le layout hl row hmem
  refine ⟨row, hrow, ?_, ?_⟩
  · intro k hk px py x
    have hw : specRowWidth [k] = specTokenWidth k := by
      rw [specRowWidth_cons, specRowWidth_nil, add_zero]
    have h0k : ∀ a ∈ [k], a ≠ 0 := by
      intro a ha; rw [List.mem_singleton.mp ha]; exact h0 k hk
    have hsk : ∀ a ∈ [k], 128 ≤ a → a ≤ 132 := by
      intro a ha; rw [List.mem_singleton.mp ha]; exact hs k hk
    constructor
    · rw [← hw]; exact paintRow_advance py [k] px h0k hsk
    · intro hx; rw [← hw] at hx ⊢; exact keyWalk_pass [k] x h0k hx
  · intro px py x
    exact ⟨paintRow_advance py row px h0 hs, keyWalk_pass row x h0⟩

theorem paint_touch_width_parity_witness :
    KEYBOARD_NUMBERS ∈ KEYBOARD_LAYOUTS ∧ 2 < 4 ∧
    ∃ row, KEYBOARD_NUMBERS[2]? = some row ∧
      (∀ k ∈ row, ∀ px py x : Int,
        (∃ ds, paintRow py [k] px = some (ds, px + specTokenWidth k)) ∧
        (specTokenWidth k < x → keyWalk [k] x = (Hit.miss, x - specTokenWidth k))) ∧
      (∀ px py x : Int,
        (∃ ds, paintRow py row px = some (ds, px + specRowWidth row)) ∧
        (specRowWidth row < x → keyWalk row x = (Hit.miss, x - specRowWidth row))) :=
  ⟨by decide, by decide, paint_touch_width_parity KEYBOARD_NUMBERS (by decide) 2 (by decide)⟩

/-! ## C7: the insert -/

/-- C7: on a bound field whose content is terminated with length below
capacity - 1 and with `cursorIndex` at most the content length, a touch that
produces the pending character `c` gives the content with `c` inserted at the
old `cursorIndex` (nothing lost, the buffer keeps its capacity), increments
`cursorIndex` and adds the width of `c` to `cursorPos`. -/
theorem insert_application (getCharWidth : Nat → Nat) (kb : State) (data : List Nat)
    (x y : Int) (c : Nat)
    (hf : kb.field = some data)
    (hlen : contentLength data + 1 < data.length)
    (hci : kb.cursorIndex ≤ contentLength data)
    (hk : keyHit kb.layout x y = some (Hit.char c)) :
    ∃ data',
      onTouchEnd getCharWidth kb x y =
        some { kb := { kb with
                 field := some data'
                 cursorIndex := kb.cursorIndex + 1
                 cursorPos := kb.cursorPos + (getCharWidth c : Int) }
               ret := true
               calls := [Call.onKeyPress, Call.fieldInvalidate] } ∧
      data'.length = data.length ∧
      content data' =
        (content data).take kb.cursorIndex ++ c :: (content data).drop kb.cursorIndex := by
  obtain ⟨key, _, hw⟩ := (keyHit_eq_some _ _ _ _).mp hk
  have hc := keyWalk_char_ne_zero key x c hw
  have hroom : kb.cursorIndex + 1 < data.length := by omega
  exact ⟨inserted data kb.cursorIndex c,
    onTouchEnd_char_room getCharWidth kb data x y c hf hk hroom,
    inserted_length data kb.cursorIndex c hroom,
    content_inserted_room data kb.cursorIndex c hc hci hlen⟩

theorem insert_application_witness :
    contentLength [97, 98, 0, 0] + 1 < [97, 98, 0, 0].length ∧
    (1 : Nat) ≤ contentLength [97, 98, 0, 0] ∧
    keyHit KEYBOARD_LOWERCASE 95 10 = some (Hit.char 114) ∧
    ∃ data',
      onTouchEnd (fun _ => 6) ⟨some [97, 98, 0, 0], 6, 1, KEYBOARD_LOWERCASE⟩ 95 10 =
        some ⟨⟨some data', 6 + ((6 : Nat) : Int), 1 + 1, KEYBOARD_LOWERCASE⟩, true,
          [Call.onKeyPress, Call.fieldInvalidate]⟩ ∧
      data'.length = [97, 98, 0, 0].length ∧
      content data' = (content [97, 98, 0, 0]).take 1 ++ 114 :: (content [97, 98, 0, 0]).drop 1 :=
  ⟨by decide, by decide, by decide,
    insert_application (fun _ => 6) ⟨some [97, 98, 0, 0], 6, 1, KEYBOARD_LOWERCASE⟩
      [97, 98, 0, 0] 95 10 114 rfl (by decide) (by decide) (by decide)⟩

/-! ## C8: the backspace -/

/-- C8: on a bound field with `0 < cursorIndex` at most the content length, a
touch that hits the backspace key gives the content with the character at
index `cursorIndex - 1` removed (the buffer is the old one with the bytes
from `cursorIndex` on moved one position left and a terminator in its last
byte), decrements `cursorIndex` and takes the width of the removed character
off `cursorPos`. -/
theorem backspace_removes (getCharWidth : Nat → Nat) (kb : State) (data : List Nat)
    (x y : Int)
    (hf : kb.field = some data)
    (hpos : 0 < kb.cursorIndex)
    (hci : kb.cursorIndex ≤ contentLength data)
    (hbs : keyHit kb.layout x y = some (Hit.special KEYBOARD_BACKSPACE)) :
    ∃ b data',
      (content data)[kb.cursorIndex - 1]? = some b ∧
      onTouchEnd getCharWidth kb x y =
        some { kb := { kb with
                 field := some data'
                 cursorPos := kb.cursorPos - (getCharWidth b : Int)
                 cursorIndex := kb.cursorIndex - 1 }
               ret := true
               calls := [Call.onKeyPress, Call.fieldInvalidate] } ∧
      data' = data.take (kb.cursorIndex - 1) ++ data.drop kb.cursorIndex ++ [0] ∧
      data'.length = data.length ∧
      content data' = (content data).eraseIdx (kb.cursorIndex - 1) := by
  have hl := contentLength_le data
  obtain ⟨b, hb, hcb⟩ := content_getElem data (kb.cursorIndex - 1) (by omega)
  exact ⟨b, removed data kb.cursorIndex, hcb,
    onTouchEnd_backspace_pos getCharWidth kb data x y b hf hbs hpos hb, rfl,
    removed_length data kb.cursorIndex hpos (by omega),
    content_removed_eraseIdx data kb.cursorIndex hpos hci⟩

theorem backspace_removes_witness :
    (0 : Nat) < 2 ∧
    (2 : Nat) ≤ contentLength [97, 98, 99, 0] ∧
    keyHit KEYBOARD_LOWERCASE 290 100 = some (Hit.special KEYBOARD_BACKSPACE) ∧
    ∃ b data',
      (content [97, 98, 99, 0])[2 - 1]? = some b ∧
      onTouchEnd (fun _ => 6) ⟨some [97, 98, 99, 0], 12, 2, KEYBOARD_LOWERCASE⟩ 290 100 =
        some ⟨⟨some data', 12 - ((6 : Nat) : Int), 2 - 1, KEYBOARD_LOWERCASE⟩, true,
          [Call.onKeyPress, Call.fieldInvalidate]⟩ ∧
      data' = [97, 98, 99, 0].take (2 - 1) ++ [97, 98, 99, 0].drop 2 ++ [0] ∧
      data'.length = [97, 98, 99, 0].length ∧
      content data' = (content [97, 98, 99, 0]).eraseIdx (2 - 1) :=
  ⟨by decide, by decide, by decide,
    backspace_removes (fun _ => 6) ⟨some [97, 98, 99, 0], 12, 2, KEYBOARD_LOWERCASE⟩
      [97, 98, 99, 0] 290 100 rfl (by decide) (by decide) (by decide)⟩

/-! ## C9: `setCursorPos` snaps to a glyph boundary -/

/-- C9: on a bound buffer, with glyph widths that fit the `uint8_t` in which
the walk holds them, `setCursorPos(x)` leaves the buffer and the layout alone,
ends with `cursorIndex` at the first index at which the walk stops (no index
before it is a stopping index, it is one) and at most the content length, and
with `cursorPos` the width sum of `buffer[0..cursorIndex)`; for `0 ≤ x` that is
at most `x`, and for `x < 0` both `cursorIndex` and `cursorPos` are 0. -/
theorem setCursorPos_snaps (getCharWidth : Nat → Nat) (kb : State) (data : List Nat)
    (x : Int)
    (hf : kb.field = some data)
    (hw : ∀ c, getCharWidth c < 256) :
    (setCursorPos getCharWidth kb x).1.field = some data ∧
    (setCursorPos getCharWidth kb x).1.layout = kb.layout ∧
    (setCursorPos getCharWidth kb x).1.cursorIndex ≤ contentLength data ∧
    (∀ j, j < (setCursorPos getCharWidth kb x).1.cursorIndex →
      ¬ stopsAt getCharWidth data x j) ∧
    stopsAt getCharWidth data x (setCursorPos getCharWidth kb x).1.cursorIndex ∧
    (setCursorPos getCharWidth kb x).1.cursorPos =
      widthSum getCharWidth data (setCursorPos getCharWidth kb x).1.cursorIndex ∧
    (0 ≤ x → (setCursorPos getCharWidth kb x).1.cursorPos ≤ x) ∧
    (x < 0 → (setCursorPos getCharWidth kb x).1.cursorIndex = 0 ∧
      (setCursorPos getCharWidth kb x).1.cursorPos = 0) := by
  rw [setCursorPos_bound getCharWidth kb data x hf]
  obtain ⟨n, hn, hle, hpass, hstop, hnn, hneg⟩ := cursorWalk_spec getCharWidth hw data 0 x
  simp only [hn, Nat.zero_add]
  refine ⟨hf, trivial, hle, ?_, hstop, by omega, fun h0 => by have := hnn h0; omega, ?_⟩
  · intro j hj hstopj
    obtain ⟨b, hb, hbw⟩ := hpass j hj
    rcases hstopj with h | ⟨b', hb', hbw'⟩
    · omega
    · rw [hb] at hb'
      cases hb'
      omega
  · intro hx
    have h0 := hneg hx
    subst h0
    exact ⟨rfl, by rw [widthSum_zero]; omega⟩

theorem setCursorPos_snaps_witness :
    (⟨some [97, 98, 0], 0, 0, KEYBOARD_LOWERCASE⟩ : State).field = some [97, 98, 0] ∧
    (∀ c : Nat, (fun _ => 6) c < 256) ∧
    (setCursorPos (fun _ => 6) ⟨some [97, 98, 0], 0, 0, KEYBOARD_LOWERCASE⟩ 7).1.cursorIndex
      ≤ contentLength [97, 98, 0] ∧
    (setCursorPos (fun _ => 6) ⟨some [97, 98, 0], 0, 0, KEYBOARD_LOWERCASE⟩ 7).1.cursorPos =
      widthSum (fun _ => 6) [97, 98, 0]
        (setCursorPos (fun _ => 6) ⟨some [97, 98, 0], 0, 0, KEYBOARD_LOWERCASE⟩ 7).1.cursorIndex :=
  ⟨rfl, fun _ => by simp,
    (setCursorPos_snaps (fun _ => 6) ⟨some [97, 98, 0], 0, 0, KEYBOARD_LOWERCASE⟩
      [97, 98, 0] 7 rfl (fun _ => by simp)).2.2.1,
    (setCursorPos_snaps (fun _ => 6) ⟨some [97, 98, 0], 0, 0, KEYBOARD_LOWERCASE⟩
      [97, 98, 0] 7 rfl (fun _ => by simp)).2.2.2.2.2.1⟩

/-! ## C10: layout switch -/

/-- C10: on a bound field, a touch that hits a shift or switch control key sets
the active layout to the key's constant (set-uppercase gives
`KEYBOARD_UPPERCASE`, set-lowercase and set-letters give `KEYBOARD_LOWERCASE`,
set-numbers gives `KEYBOARD_NUMBERS`) and leaves the buffer, `cursorIndex` and
`cursorPos` unchanged; with the lowercase layout active, a touch in the row of
index 2 with `x ≤ 45` makes the active layout `KEYBOARD_UPPERCASE`. -/
theorem layout_switch (getCharWidth : Nat → Nat) (kb : State) (data : List Nat)
    (x y : Int) (hf : kb.field = some data) :
    (keyHit kb.layout x y = some (Hit.special KEYBOARD_SET_UPPERCASE) →
      onTouchEnd getCharWidth kb x y =
        some { kb := { kb with layout := KEYBOARD_UPPERCASE }, ret := true,
               calls := [Call.onKeyPress, Call.invalidate, Call.fieldInvalidate] }) ∧
    (keyHit kb.layout x y = some (Hit.special KEYBOARD_SET_LOWERCASE) →
      onTouchEnd getCharWidth kb x y =
        some { kb := { kb with layout := KEYBOARD_LOWERCASE }, ret := true,
               calls := [Call.onKeyPress, Call.invalidate, Call.fieldInvalidate] }) ∧
    (keyHit kb.layout x y = some (Hit.special KEYBOARD_SET_LETTERS) →
      onTouchEnd getCharWidth kb x y =
        some { kb := { kb with layout := KEYBOARD_LOWERCASE }, ret := true,
               calls := [Call.onKeyPress, Call.invalidate, Call.fieldInvalidate] }) ∧
    (keyHit kb.layout x y = some (Hit.special KEYBOARD_SET_NUMBERS) →
      onTouchEnd getCharWidth kb x y =
        some { kb := { kb with layout := KEYBOARD_NUMBERS }, ret := true,
               calls := [Call.onKeyPress, Call.invalidate, Call.fieldInvalidate] }) ∧
    (kb.layout = KEYBOARD_LOWERCASE → rowOf y = 2 → x ≤ 45 →
      onTouchEnd getCharWidth kb x y =
        some { kb := { kb with layout := KEYBOARD_UPPERCASE }, ret := true,
               calls := [Call.onKeyPress, Call.invalidate, Call.fieldInvalidate] }) := by
  refine ⟨fun hk => ?_, fun hk => ?_, fun hk => ?_, fun hk => ?_, fun hlow hy hx => ?_⟩
  · exact onTouchEnd_switch getCharWidth kb data x y _ _ hf hk (by decide) rfl
  · exact onTouchEnd_switch getCharWidth kb data x y _ _ hf hk (by decide) rfl
  · exact onTouchEnd_switch getCharWidth kb data x y _ _ hf hk (by decide) rfl
  · exact onTouchEnd_switch getCharWidth kb data x y _ _ hf hk (by decide) rfl
  · have hk : keyHit kb.layout x y = some (Hit.special KEYBOARD_SET_UPPERCASE) := by
      rw [hlow, keyHit, hy]
      simp [KEYBOARD_LOWERCASE, KEYBOARD_SET_UPPERCASE, keyWalk, hx]
    exact onTouchEnd_switch getCharWidth kb data x y _ _ hf hk (by decide) rfl

theorem layout_switch_witness :
    (⟨some [97, 98, 0], 12, 2, KEYBOARD_LOWERCASE⟩ : State).field = some [97, 98, 0] ∧
    rowOf 100 = 2 ∧ (20 : Int) ≤ 45 ∧
    onTouchEnd (fun _ => 6) ⟨some [97, 98, 0], 12, 2, KEYBOARD_LOWERCASE⟩ 20 100 =
      some ⟨⟨some [97, 98, 0], 12, 2, KEYBOARD_UPPERCASE⟩, true,
        [Call.onKeyPress, Call.invalidate, Call.fieldInvalidate]⟩ :=
  ⟨rfl, by decide, by decide,
    (layout_switch (fun _ => 6) ⟨some [97, 98, 0], 12, 2, KEYBOARD_LOWERCASE⟩
      [97, 98, 0] 20 100 rfl).2.2.2.2 rfl (by decide) (by decide)⟩

/-! ## Walking over the first tokens of a row -/

theorem specRowWidth_append (pre post : List Nat) :
    specRowWidth (pre ++ post) = specRowWidth pre + specRowWidth post := by
  simp [specRowWidth]

theorem keyWalk_append_pass (pre : List Nat) :
    ∀ (post : List Nat) (x : Int), (∀ k ∈ pre, k ≠ 0) → specRowWidth pre < x →
      keyWalk (pre ++ post) x = keyWalk post (x - specRowWidth pre) := by
  induction pre with
  | nil => intro post x _ _; simp [specRowWidth_nil]
  | cons k pre ih =>
    intro post x h0 hx
    have hk0 : k ≠ 0 := h0 k (List.mem_cons_self _ _)
    have hpre : ∀ a ∈ pre, a ≠ 0 := fun a ha => h0 a (List.mem_cons_of_mem _ ha)
    have hnn := specRowWidth_nonneg pre
    rw [specRowWidth_cons] at hx ⊢
    unfold specTokenWidth at hx ⊢
    rw [List.cons_append, keyWalk, if_neg hk0]
    split_ifs at hx ⊢ <;> first
      | omega
      | (rw [ih post _ hpre (by omega)]; congr 1; ring)

theorem keyWalk_head (k : Nat) (rest : List Nat) (x : Int) (h0 : k ≠ 0) (h32 : k ≠ 32)
    (hx : x ≤ 30) : keyWalk (k :: rest) x = (tokenHit k, x) := by
  unfold keyWalk tokenHit
  rw [if_neg h0, if_neg h32]
  split_ifs <;> first
    | rfl
    | omega

theorem keyWalk_blank (row : List Nat) (x : Int) :
    keyWalk (32 :: row) x = keyWalk row (x - 15) := by
  rw [keyWalk, if_neg (by decide), if_pos rfl]

theorem tokenHit_literal (k : Nat) (h : isLiteral k = true) : tokenHit k = Hit.char k := by
  simp [isLiteral] at h
  unfold tokenHit
  rw [if_neg h.1.1.2, if_neg h.1.2, if_neg (by omega)]

theorem specTokenWidth_literal (k : Nat) (h : isLiteral k = true) :
    specTokenWidth k = 30 := by
  simp [isLiteral] at h
  unfold specTokenWidth
  rw [if_neg h.1.1.1.2, if_neg h.1.1.2, if_neg h.1.2, if_neg (by omega)]

theorem specRowWidth_literal (row : List Nat) (h : ∀ k ∈ row, isLiteral k = true) :
    specRowWidth row = 30 * (row.length : Int) := by
  induction row with
  | nil => simp [specRowWidth_nil]
  | cons k row ih =>
    rw [specRowWidth_cons, specTokenWidth_literal k (h k (List.mem_cons_self _ _)),
      ih fun a ha => h a (List.mem_cons_of_mem _ ha)]
    simp only [List.length_cons]
    push_cast
    ring

theorem isLiteral_ne_zero (k : Nat) (h : isLiteral k = true) : k ≠ 0 := by
  simp [isLiteral] at h
  exact h.1.1.1.1

theorem isLiteral_ne_blank (k : Nat) (h : isLiteral k = true) : k ≠ 32 := by
  simp [isLiteral] at h
  exact h.1.1.1.2

theorem keyWalk_literal_row (row : List Nat) (h : ∀ k ∈ row, isLiteral k = true)
    (j : Nat) (c : Nat) (hc : row[j]? = some c) (x : Int)
    (hlo : 30 * (j : Int) < x) (hhi : x ≤ 30 * ((j : Int) + 1)) :
    keyWalk row x = (Hit.char c, x - 30 * (j : Int)) := by
  have hj : j < row.length := (List.getElem?_eq_some.mp hc).1
  have hcj : row[j] = c := (List.getElem?_eq_some.mp hc).2
  have hsplit : row = row.take j ++ c :: row.drop (j + 1) := by
    rw [← hcj, ← List.drop_eq_getElem_cons hj, List.take_append_drop]
  have hpre : ∀ k ∈ row.take j, isLiteral k = true :=
    fun k hk => h k (List.mem_of_mem_take hk)
  have hw : specRowWidth (row.take j) = 30 * (j : Int) := by
    rw [specRowWidth_literal _ hpre, List.length_take, Nat.min_eq_left (by omega)]
  have hcl : isLiteral c = true := h c (hcj ▸ List.getElem_mem hj)
  conv_lhs => rw [hsplit]
  rw [keyWalk_append_pass _ _ x (fun k hk => isLiteral_ne_zero k (hpre k hk)) (by omega),
    hw, keyWalk_head c _ _ (isLiteral_ne_zero c hcl) (isLiteral_ne_blank c hcl) (by omega),
    tokenHit_literal c hcl]

/-! ## Row selection and the bottom row -/

theorem rowOf_lt (y : Int) (hy : y < 160) : rowOf y < 4 := by
  unfold rowOf
  omega

theorem rowOf_eq (y : Int) (r : Nat) (hr : r < 256) (hlo : 5 + 40 * (r : Int) ≤ y)
    (hhi : y < 45 + 40 * (r : Int)) : rowOf y = r := by
  unfold rowOf
  omega

theorem rowOf_top (y : Int) (hy : y < 45) : rowOf y = 0 := by
  unfold rowOf
  omega

theorem layouts_bottom_row (layout : List (List Nat)) (hl : layout ∈ KEYBOARD_LAYOUTS) :
    layout[3]? = some [KEYBOARD_SET_NUMBERS, KEYBOARD_SPACE, KEYBOARD_ENTER] ∨
    layout[3]? = some [KEYBOARD_SET_LETTERS, KEYBOARD_SPACE, KEYBOARD_ENTER] := by
  simp only [KEYBOARD_LAYOUTS, List.mem_cons, List.mem_singleton, List.not_mem_nil,
    or_false] at hl
  rcases hl with h | h | h | h <;> subst h <;> simp [KEYBOARD_UPPERCASE, KEYBOARD_LOWERCASE,
    KEYBOARD_NUMBERS]

theorem keyWalk_bottom_row (k : Nat) (hk : 128 ≤ k) (x : Int) :
    (keyWalk [k, KEYBOARD_SPACE, KEYBOARD_ENTER] x).1 = Hit.enter ↔ 180 < x ∧ x ≤ 260 := by
  have h0 : k ≠ 0 := by omega
  have h32 : k ≠ 32 := by omega
  have h9 : k ≠ KEYBOARD_SPACE := by unfold KEYBOARD_SPACE; omega
  have h10 : k ≠ KEYBOARD_ENTER := by unfold KEYBOARD_ENTER; omega
  rw [keyWalk, if_neg h0, if_neg h32, if_neg h9, if_neg h10, if_pos hk]
  by_cases h1 : x ≤ 45
  · rw [if_pos h1]; simp; omega
  · rw [if_neg h1, keyWalk, if_neg (by decide), if_neg (by decide), if_pos rfl]
    by_cases h2 : x - 45 ≤ 135
    · rw [if_pos h2]; simp; omega
    · rw [if_neg h2, keyWalk, if_neg (by decide), if_neg (by decide), if_neg (by decide),
        if_pos rfl]
      by_cases h3 : x - 45 - 135 ≤ 80
      · rw [if_pos h3]; simp; omega
      · rw [if_neg h3]; simp [keyWalk]; omega

theorem keyHit_bottom_row (layout : List (List Nat)) (hl : layout ∈ KEYBOARD_LAYOUTS)
    (x y : Int) (hy : rowOf y = 3) :
    keyHit layout x y = some Hit.enter ↔ 180 < x ∧ x ≤ 260 := by
  rcases layouts_bottom_row layout hl with h | h
  · rw [keyHit, hy, h]
    simpa using keyWalk_bottom_row KEYBOARD_SET_NUMBERS (by decide) x
  · rw [keyHit, hy, h]
    simpa using keyWalk_bottom_row KEYBOARD_SET_LETTERS (by decide) x

theorem keyHit_past_row (layout : List (List Nat)) (hl : layout ∈ KEYBOARD_LAYOUTS)
    (x y : Int) (row : List Nat) (hrow : layout[rowOf y]? = some row)
    (hx : specRowWidth row < x) : keyHit layout x y = some Hit.miss := by
  have hmem : row ∈ layout := List.getElem?_mem hrow
  rw [keyHit, hrow, Option.map_some', keyWalk_pass row x (layouts_ne_zero layout hl row hmem) hx]

/-! ## Literal keys and the first two rows -/

theorem layouts_cases (layout : List (List Nat)) (hl : layout ∈ KEYBOARD_LAYOUTS) :
    layout = KEYBOARD_UPPERCASE ∨ layout = KEYBOARD_LOWERCASE ∨ layout = KEYBOARD_NUMBERS := by
  simp only [KEYBOARD_LAYOUTS, List.mem_cons, List.mem_singleton, List.not_mem_nil,
    or_false] at hl
  rcases hl with h | h | h | h
  · exact Or.inl h
  · exact Or.inr (Or.inl h)
  · exact Or.inr (Or.inl h)
  · exact Or.inr (Or.inr h)

theorem layouts_first_row (layout : List (List Nat)) (hl : layout ∈ KEYBOARD_LAYOUTS) :
    ∃ row, layout[0]? = some row ∧ row.length = 10 ∧ ∀ k ∈ row, isLiteral k = true := by
  rcases layouts_cases layout hl with h | h | h <;> subst h
  · exact ⟨_, rfl, by decide, by decide⟩
  · exact ⟨_, rfl, by decide, by decide⟩
  · exact ⟨_, rfl, by decide, by decide⟩

theorem keyWalk_literal (k : Nat) (h : isLiteral k = true) (x : Int) :
    keyWalk [k] x = if x ≤ 30 then (Hit.char k, x) else (Hit.miss, x - 30) := by
  have h0 := isLiteral_ne_zero k h
  have h32 := isLiteral_ne_blank k h
  simp [isLiteral] at h
  rw [keyWalk, if_neg h0, if_neg h32, if_neg h.1.1.2, if_neg h.1.2, if_neg (by omega)]
  split_ifs
  · rfl
  · rfl

theorem paintRow_literal (k : Nat) (h : isLiteral k = true) (x y : Int) :
    paintRow y [k] x = some ([Draw.sizedText x y k], x + 30) := by
  have h0 := isLiteral_ne_zero k h
  have h32 := isLiteral_ne_blank k h
  simp [isLiteral] at h
  rw [paintRow, if_neg h0, if_neg h32, if_neg h.1.1.2, if_neg h.1.2, if_neg (by omega)]
  rfl

/-! ## Terminator after an edit -/

theorem mem_inserted_zero (data : List Nat) (i c : Nat) (hc : c ≠ 0)
    (hi : i ≤ contentLength data) (hlen : contentLength data + 1 < data.length) :
    0 ∈ inserted data i c := by
  apply mem_of_contentLength_lt
  have hcl : contentLength (inserted data i c) = contentLength data + 1 := by
    unfold contentLength at *
    rw [content_inserted_room data i c hc hi hlen]
    simp only [List.length_append, List.length_cons, List.length_take, List.length_drop]
    omega
  rw [hcl, inserted_length data i c (by omega)]
  exact hlen

theorem mem_removed_zero (data : List Nat) (i : Nat) : 0 ∈ removed data i := by
  simp [removed]

theorem onTouchEnd_cases_hit (gw : Nat → Nat) (kb : State) (data : List Nat) (x y : Int)
    (hf : kb.field = some data) (hci : kb.cursorIndex ≤ data.length)
    (hl : kb.layout ∈ KEYBOARD_LAYOUTS) (hy : rowOf y < 4) :
    ∃ o, onTouchEnd gw kb x y = some o ∧
      (o.kb = kb ∨
       (∃ layout ∈ KEYBOARD_LAYOUTS, o.kb = { kb with layout := layout }) ∨
       (∃ c, c ≠ 0 ∧ kb.cursorIndex + 1 < data.length ∧
          keyHit kb.layout x y = some (Hit.char c) ∧
          o.kb = { kb with
            field := some (inserted data kb.cursorIndex c)
            cursorIndex := kb.cursorIndex + 1
            cursorPos := kb.cursorPos + (gw c : Int) }) ∨
       (∃ b, 0 < kb.cursorIndex ∧ data[kb.cursorIndex - 1]? = some b ∧
          o.kb = { kb with
            field := some (removed data kb.cursorIndex)
            cursorPos := kb.cursorPos - (gw b : Int)
            cursorIndex := kb.cursorIndex - 1 })) := by
  obtain ⟨key, hrow, hmem⟩ := layouts_row kb.layout hl (rowOf y) hy
  have hk : keyHit kb.layout x y = some (keyWalk key x).1 := by simp [keyHit, hrow]
  cases hh : (keyWalk key x).1 with
  | miss =>
    rw [hh] at hk
    exact ⟨_, onTouchEnd_miss gw kb data x y hf hk, Or.inl rfl⟩
  | enter =>
    rw [hh] at hk
    exact ⟨_, onTouchEnd_enter gw kb data x y hf hk, Or.inl rfl⟩
  | char c =>
    rw [hh] at hk
    by_cases hroom : kb.cursorIndex + 1 < data.length
    · exact ⟨_, onTouchEnd_char_room gw kb data x y c hf hk hroom,
        Or.inr (Or.inr (Or.inl ⟨c, keyWalk_char_ne_zero key x c hh, hroom, hk, rfl⟩))⟩
    · exact ⟨_, onTouchEnd_char_full gw kb data x y c hf hk (by omega), Or.inl rfl⟩
  | special k =>
    rw [hh] at hk
    obtain ⟨hkmem, hk128⟩ := keyWalk_special_mem key x k hh
    have hk132 := layouts_special_le kb.layout hl key hmem k hkmem hk128
    by_cases hbs : k = 128
    · subst hbs
      by_cases h0 : kb.cursorIndex = 0
      · exact ⟨_, onTouchEnd_backspace_zero gw kb data x y hf hk h0, Or.inl rfl⟩
      · have hlt : kb.cursorIndex - 1 < data.length := by omega
        have hb : data[kb.cursorIndex - 1]? = some data[kb.cursorIndex - 1] :=
          List.getElem?_eq_getElem hlt
        exact ⟨_, onTouchEnd_backspace_pos gw kb data x y _ hf hk (by omega) hb,
          Or.inr (Or.inr (Or.inr ⟨_, by omega, hb, rfl⟩))⟩
    · obtain ⟨layout, hget, hin⟩ := layouts_getElem k (by omega) hk132
      exact ⟨_, onTouchEnd_switch gw kb data x y k layout hf hk hbs hget,
        Or.inr (Or.inl ⟨layout, hin, rfl⟩)⟩

/-! ## Painting a row token by token -/

theorem paintRow_append (y : Int) (pre : List Nat) :
    ∀ (post : List Nat) (x : Int), (∀ k ∈ pre, k ≠ 0) → (∀ k ∈ pre, 128 ≤ k → k ≤ 132) →
      ∃ ds, paintRow y pre x = some (ds, x + specRowWidth pre) ∧
        paintRow y (pre ++ post) x =
          (paintRow y post (x + specRowWidth pre)).map fun r => (ds ++ r.1, r.2) := by
  induction pre with
  | nil =>
    intro post x _ _
    refine ⟨[], by rw [specRowWidth_nil, add_zero]; rfl, ?_⟩
    rw [specRowWidth_nil, add_zero, List.nil_append]
    cases paintRow y post x <;> simp
  | cons k pre ih =>
    intro post x h0 hs
    have hk0 : k ≠ 0 := h0 k (List.mem_cons_self _ _)
    have hpre : ∀ a ∈ pre, a ≠ 0 := fun a ha => h0 a (List.mem_cons_of_mem _ ha)
    have hspre : ∀ a ∈ pre, 128 ≤ a → a ≤ 132 :=
      fun a ha => hs a (List.mem_cons_of_mem _ ha)
    rw [specRowWidth_cons, List.cons_append]
    unfold specTokenWidth
    rw [paintRow, paintRow, if_neg hk0, if_neg hk0]
    by_cases h32 : k = 32
    · obtain ⟨ds, hds, happ⟩ := ih post (x + 15) hpre hspre
      rw [if_pos h32, if_pos h32, if_pos h32, hds, happ, add_assoc]
      exact ⟨ds, rfl, rfl⟩
    · rw [if_neg h32, if_neg h32, if_neg h32]
      by_cases h9 : k = KEYBOARD_SPACE
      · obtain ⟨ds, hds, happ⟩ := ih post (x + 135) hpre hspre
        rw [if_pos h9, if_pos h9, if_pos h9, hds, happ, add_assoc]
        exact ⟨_, rfl, by cases paintRow y post (x + (135 + specRowWidth pre)) <;> rfl⟩
      · rw [if_neg h9, if_neg h9, if_neg h9]
        by_cases h10 : k = KEYBOARD_ENTER
        · obtain ⟨ds, hds, happ⟩ := ih post (x + 80) hpre hspre
          rw [if_pos h10, if_pos h10, if_pos h10, hds, happ, add_assoc]
          exact ⟨_, rfl, by cases paintRow y post (x + (80 + specRowWidth pre)) <;> rfl⟩
        · rw [if_neg h10, if_neg h10, if_neg h10]
          by_cases h128 : 128 ≤ k
          · obtain ⟨ds, hds, happ⟩ := ih post (x + 45) hpre hspre
            have hle := hs k (List.mem_cons_self _ _) h128
            have hidx : (k - 128) % 256 < LBM_SPECIAL_KEYS.length := by
              simp [LBM_SPECIAL_KEYS]; omega
            rw [if_pos h128, if_pos h128, if_pos h128, List.getElem?_eq_getElem hidx, hds,
              happ, add_assoc]
            exact ⟨_, rfl, by cases paintRow y post (x + (45 + specRowWidth pre)) <;> rfl⟩
          · obtain ⟨ds, hds, happ⟩ := ih post (x + 30) hpre hspre
            rw [if_neg h128, if_neg h128, if_neg h128, hds, happ, add_assoc]
            exact ⟨_, rfl, by cases paintRow y post (x + (30 + specRowWidth pre)) <;> rfl⟩

/-! ## A token is hit where it is painted -/

theorem tokenDraws_ne_nil (k : Nat) (x y : Int) (h0 : k ≠ 0) (h32 : k ≠ 32)
    (hs : 128 ≤ k → k ≤ 132) : tokenDraws k x y ≠ [] := by
  unfold tokenDraws
  rw [paintRow, if_neg h0, if_neg h32]
  by_cases h9 : k = KEYBOARD_SPACE
  · rw [if_pos h9]; simp [paintRow]
  · rw [if_neg h9]
    by_cases h10 : k = KEYBOARD_ENTER
    · rw [if_pos h10]; simp [paintRow]
    · rw [if_neg h10]
      by_cases h128 : 128 ≤ k
      · have hidx : (k - 128) % 256 < LBM_SPECIAL_KEYS.length := by
          have := hs h128
          simp [LBM_SPECIAL_KEYS]; omega
        rw [if_pos h128, List.getElem?_eq_getElem hidx]
        simp [paintRow]
      · rw [if_neg h128]; simp [paintRow]

theorem paint_touch_token (y : Int) (pre rest : List Nat) (k : Nat)
    (h0 : ∀ t ∈ pre ++ k :: rest, t ≠ 0)
    (hs : ∀ t ∈ pre ++ k :: rest, 128 ≤ t → t ≤ 132) (h32 : k ≠ 32) :
    ∃ ds1 ds2 xe,
      paintRow y pre 15 = some (ds1, 15 + specRowWidth pre) ∧
      paintRow y (pre ++ k :: rest) 15 =
        some (ds1 ++ tokenDraws k (15 + specRowWidth pre) y ++ ds2, xe) ∧
      tokenDraws k (15 + specRowWidth pre) y ≠ [] ∧
      keyWalk (pre ++ k :: rest) (15 + specRowWidth pre) = (tokenHit k, 15) := by
  have hk0 : k ≠ 0 := h0 k (by simp)
  have hks : 128 ≤ k → k ≤ 132 := hs k (by simp)
  have h0pre : ∀ t ∈ pre, t ≠ 0 := fun t ht => h0 t (by simp [ht])
  have hspre : ∀ t ∈ pre, 128 ≤ t → t ≤ 132 := fun t ht => hs t (by simp [ht])
  have h0rest : ∀ t ∈ rest, t ≠ 0 := fun t ht => h0 t (by simp [ht])
  have hsrest : ∀ t ∈ rest, 128 ≤ t → t ≤ 132 := fun t ht => hs t (by simp [ht])
  have h0k : ∀ t ∈ [k], t ≠ 0 := by
    intro t ht; rw [List.mem_singleton.mp ht]; exact hk0
  have hsk : ∀ t ∈ [k], 128 ≤ t → t ≤ 132 := by
    intro t ht; rw [List.mem_singleton.mp ht]; exact hks
  obtain ⟨ds1, hpre, happ⟩ := paintRow_append y pre (k :: rest) 15 h0pre hspre
  obtain ⟨dk, hk1, hk2⟩ :=
    paintRow_append y [k] rest (15 + specRowWidth pre) h0k hsk
  obtain ⟨ds2, hrest⟩ :=
    paintRow_advance y rest (15 + specRowWidth pre + specRowWidth [k]) h0rest hsrest
  have htd : tokenDraws k (15 + specRowWidth pre) y = dk := by
    unfold tokenDraws
    rw [hk1]
    rfl
  refine ⟨ds1, ds2, 15 + specRowWidth pre + specRowWidth [k] + specRowWidth rest, hpre, ?_, tokenDraws_ne_nil k _ y hk0 h32 hks, ?_⟩
  · rw [happ, show k :: rest = [k] ++ rest from rfl, hk2, hrest, htd]
    simp only [Option.map_some', List.append_assoc]
  · have hnn := specRowWidth_nonneg pre
    rw [keyWalk_append_pass pre (k :: rest) _ h0pre (by omega),
      show 15 + specRowWidth pre - specRowWidth pre = 15 by ring,
      keyWalk_head k rest 15 hk0 h32 (by norm_num)]

/-! ## C11: the enter key -/

/-- C11: on a bound field, for each of the layouts, a touch in the bottom row
(row index 3) reaches the enter key exactly when `180 < x ≤ 260` (after the
45px switch key and the 135px space-bar); such a touch calls `disable(true)`,
returns `true`, makes no other call after the key-press notification, and
leaves the buffer, `cursorIndex`, `cursorPos` and the active layout
unchanged. -/
theorem enter_commits_without_mutation (getCharWidth : Nat → Nat) (kb : State)
    (data : List Nat) (x y : Int)
    (hf : kb.field = some data)
    (hl : kb.layout ∈ KEYBOARD_LAYOUTS)
    (hy : rowOf y = 3) :
    (keyHit kb.layout x y = some Hit.enter ↔ 180 < x ∧ x ≤ 260) ∧
    (180 < x → x ≤ 260 →
      onTouchEnd getCharWidth kb x y =
        some { kb := kb, ret := true, calls := [Call.onKeyPress, Call.disable true] }) := by
  have hiff := keyHit_bottom_row kb.layout hl x y hy
  exact ⟨hiff, fun hlo hhi =>
    onTouchEnd_enter getCharWidth kb data x y hf (hiff.mpr ⟨hlo, hhi⟩)⟩

theorem enter_commits_without_mutation_witness :
    (⟨some [97, 98, 0], 12, 2, KEYBOARD_NUMBERS⟩ : State).field = some [97, 98, 0] ∧
    KEYBOARD_NUMBERS ∈ KEYBOARD_LAYOUTS ∧
    rowOf 140 = 3 ∧ (180 : Int) < 200 ∧ (200 : Int) ≤ 260 ∧
    onTouchEnd (fun _ => 6) ⟨some [97, 98, 0], 12, 2, KEYBOARD_NUMBERS⟩ 200 140 =
      some ⟨⟨some [97, 98, 0], 12, 2, KEYBOARD_NUMBERS⟩, true,
        [Call.onKeyPress, Call.disable true]⟩ :=
  ⟨rfl, by decide, by decide, by decide, by decide,
    (enter_commits_without_mutation (fun _ => 6) ⟨some [97, 98, 0], 12, 2, KEYBOARD_NUMBERS⟩
      [97, 98, 0] 200 140 rfl (by decide) (by decide)).2 (by decide) (by decide)⟩

/-! ## C12: a touch past the last key -/

/-- C12: on a bound field, for each of the layouts and each of its rows, a
touch whose `x` is greater than the total token width of the row ends the
walk without a hit; `onTouchEnd` returns `true`, leaves the buffer,
`cursorIndex`, `cursorPos` and the active layout unchanged, and its calls are
the key-press notification of line 171 and the repaint request of the
field. -/
theorem touch_past_last_key_unchanged (getCharWidth : Nat → Nat) (kb : State)
    (data : List Nat) (x y : Int) (row : List Nat)
    (hf : kb.field = some data)
    (hl : kb.layout ∈ KEYBOARD_LAYOUTS)
    (hrow : kb.layout[rowOf y]? = some row)
    (hx : specRowWidth row < x) :
    keyHit kb.layout x y = some Hit.miss ∧
    onTouchEnd getCharWidth kb x y =
      some { kb := kb, ret := true, calls := [Call.onKeyPress, Call.fieldInvalidate] } := by
  have hk := keyHit_past_row kb.layout hl x y row hrow hx
  exact ⟨hk, onTouchEnd_miss getCharWidth kb data x y hf hk⟩

theorem touch_past_last_key_unchanged_witness :
    (⟨some [97, 98, 0], 12, 2, KEYBOARD_NUMBERS⟩ : State).field = some [97, 98, 0] ∧
    KEYBOARD_NUMBERS ∈ KEYBOARD_LAYOUTS ∧
    KEYBOARD_NUMBERS[rowOf 50]? = some [95, 45] ∧
    specRowWidth [95, 45] < 61 ∧
    keyHit KEYBOARD_NUMBERS 61 50 = some Hit.miss ∧
    onTouchEnd (fun _ => 6) ⟨some [97, 98, 0], 12, 2, KEYBOARD_NUMBERS⟩ 61 50 =
      some ⟨⟨some [97, 98, 0], 12, 2, KEYBOARD_NUMBERS⟩, true,
        [Call.onKeyPress, Call.fieldInvalidate]⟩ :=
  ⟨rfl, by decide, by decide, by decide,
    touch_past_last_key_unchanged (fun _ => 6) ⟨some [97, 98, 0], 12, 2, KEYBOARD_NUMBERS⟩
      [97, 98, 0] 61 50 [95, 45] rfl (by decide) (by decide) (by decide)⟩

/-! ## C13: no bound field -/

/-- C13: with no field bound, for every `x` and `y`, `onTouchEnd(x, y)` returns
`false` and `setCursorPos(x)` returns; both leave `cursorIndex`, `cursorPos`
and the active layout unchanged, make no call, and have an outcome whatever
the row `y` selects (no row and no buffer is looked at). -/
theorem unbound_field_noop (getCharWidth : Nat → Nat) (kb : State) (x y : Int)
    (hf : kb.field = none) :
    onTouchEnd getCharWidth kb x y = some { kb := kb, ret := false, calls := [] } ∧
    setCursorPos getCharWidth kb x = (kb, []) := by
  constructor
  · simp only [onTouchEnd, hf]
  · simp only [setCursorPos, hf]

theorem unbound_field_noop_witness :
    (⟨none, 12, 2, KEYBOARD_NUMBERS⟩ : State).field = none ∧
    onTouchEnd (fun _ => 6) ⟨none, 12, 2, KEYBOARD_NUMBERS⟩ 20 9000 =
      some ⟨⟨none, 12, 2, KEYBOARD_NUMBERS⟩, false, []⟩ ∧
    setCursorPos (fun _ => 6) ⟨none, 12, 2, KEYBOARD_NUMBERS⟩ 20 =
      (⟨none, 12, 2, KEYBOARD_NUMBERS⟩, []) :=
  ⟨rfl, unbound_field_noop (fun _ => 6) ⟨none, 12, 2, KEYBOARD_NUMBERS⟩ 20 9000 rfl⟩

/-! ## C14: literal keys of the first row -/

/-- C14: on a bound field with room for the insert (the guard of line 230
holds, as it does whenever the content length is below capacity - 1 and the
cursor is within the content), for each of the layouts, every `j` in 0..9,
every `x` with `30 j < x ≤ 30 (j + 1)` and every `y` selecting row 0,
`onTouchEnd(x, y)` inserts the `j`-th character of the layout's first row at
the cursor. With an empty buffer of capacity 10 and the lowercase layout, the
touch `(95, 10)` gives the buffer `"r"`, `cursorIndex` 1 and `cursorPos` the
width of `r`. -/
theorem first_row_literal_hit (getCharWidth : Nat → Nat) :
    (∀ (kb : State) (data : List Nat) (x y : Int) (j : Nat),
      kb.field = some data → kb.layout ∈ KEYBOARD_LAYOUTS → rowOf y = 0 → j < 10 →
      30 * (j : Int) < x → x ≤ 30 * ((j : Int) + 1) →
      kb.cursorIndex + 1 < data.length →
      ∃ row c, kb.layout[0]? = some row ∧ row[j]? = some c ∧
        keyHit kb.layout x y = some (Hit.char c) ∧
        onTouchEnd getCharWidth kb x y =
          some { kb := { kb with
                   field := some (inserted data kb.cursorIndex c)
                   cursorIndex := kb.cursorIndex + 1
                   cursorPos := kb.cursorPos + (getCharWidth c : Int) }
                 ret := true
                 calls := [Call.onKeyPress, Call.fieldInvalidate] }) ∧
    onTouchEnd getCharWidth ⟨some [0, 0, 0, 0, 0, 0, 0, 0, 0, 0], 0, 0, KEYBOARD_LOWERCASE⟩
        95 10 =
      some ⟨⟨some [114, 0, 0, 0, 0, 0, 0, 0, 0, 0], (getCharWidth 114 : Int), 1,
        KEYBOARD_LOWERCASE⟩, true, [Call.onKeyPress, Call.fieldInvalidate]⟩ := by
  constructor
  · intro kb data x y j hf hl hy hj hlo hhi hroom
    obtain ⟨row, hrow, hlen, hlit⟩ := layouts_first_row kb.layout hl
    have hjl : j < row.length := by omega
    have hc : row[j]? = some row[j] := List.getElem?_eq_getElem hjl
    have hw := keyWalk_literal_row row hlit j row[j] hc x hlo hhi
    have hk : keyHit kb.layout x y = some (Hit.char row[j]) := by
      rw [keyHit, hy, hrow, Option.map_some', hw]
    exact ⟨row, row[j], hrow, hc, hk,
      onTouchEnd_char_room getCharWidth kb data x y row[j] hf hk hroom⟩
  · have hk : keyHit (⟨some [0, 0, 0, 0, 0, 0, 0, 0, 0, 0], 0, 0, KEYBOARD_LOWERCASE⟩ :
        State).layout 95 10 = some (Hit.char 114) := by decide
    rw [onTouchEnd_char_room getCharWidth _ [0, 0, 0, 0, 0, 0, 0, 0, 0, 0] 95 10 114 rfl hk
      (by decide)]
    simp [inserted]

theorem first_row_literal_hit_witness :
    (⟨some [97, 0, 0], 6, 1, KEYBOARD_NUMBERS⟩ : State).field = some [97, 0, 0] ∧
    KEYBOARD_NUMBERS ∈ KEYBOARD_LAYOUTS ∧ rowOf 10 = 0 ∧ 3 < 10 ∧
    30 * ((3 : Nat) : Int) < 95 ∧ (95 : Int) ≤ 30 * (((3 : Nat) : Int) + 1) ∧
    1 + 1 < [97, 0, 0].length ∧
    ∃ row c, KEYBOARD_NUMBERS[0]? = some row ∧ row[3]? = some c ∧
      keyHit KEYBOARD_NUMBERS 95 10 = some (Hit.char c) ∧
      onTouchEnd (fun _ => 6) ⟨some [97, 0, 0], 6, 1, KEYBOARD_NUMBERS⟩ 95 10 =
        some ⟨⟨some (inserted [97, 0, 0] 1 c), 6 + (((fun _ => 6) c : Nat) : Int), 1 + 1,
          KEYBOARD_NUMBERS⟩, true, [Call.onKeyPress, Call.fieldInvalidate]⟩ :=
  ⟨rfl, by decide, by decide, by decide, by decide, by decide, by decide,
    (first_row_literal_hit (fun _ => 6)).1 ⟨some [97, 0, 0], 6, 1, KEYBOARD_NUMBERS⟩
      [97, 0, 0] 95 10 3 rfl (by decide) (by decide) (by decide) (by decide) (by decide)
      (by decide)⟩

/-! ## C15: the blank spacer -/

/-- C15 (counterexample): the second row of the lowercase layout opens with a
blank spacer; with the buffer of 3 zero bytes and the cursor at 0, the touch
`(10, 50)`, inside the spacer's 15px, hits the key `a` and inserts it. -/
theorem blank_spacer_touch_inserts :
    (KEYBOARD_LOWERCASE[rowOf 50]?).bind (fun row => row[0]?) = some 32 ∧
    keyHit KEYBOARD_LOWERCASE 10 50 = some (Hit.char 97) ∧
    onTouchEnd (fun _ => 6) ⟨some [0, 0, 0], 0, 0, KEYBOARD_LOWERCASE⟩ 10 50 =
      some ⟨⟨some [97, 0, 0], 6, 1, KEYBOARD_LOWERCASE⟩, true,
        [Call.onKeyPress, Call.fieldInvalidate]⟩ ∧
    (some [97, 0, 0] : Option (List Nat)) ≠ some [0, 0, 0] := by
  decide

/-- C15 (amended): a blank spacer has no associated key and is never the hit:
the walk only subtracts its 15px and goes on with the next token. For the
second row of the lowercase and uppercase layouts, which opens with a blank
spacer, a touch with `x` inside the spacer's 15px hits the literal key that
follows the spacer (`a`, `A`); on a bound field it inserts that character
when the guard of line 230 holds, and otherwise leaves the buffer,
`cursorIndex`, `cursorPos` and the active layout unchanged. -/
theorem blank_spacer_never_hit (getCharWidth : Nat → Nat) (kb : State) (data : List Nat)
    (x y : Int)
    (hf : kb.field = some data)
    (hy : rowOf y = 1)
    (hx : x ≤ 15) :
    (∀ (row : List Nat) (x' : Int), keyWalk (32 :: row) x' = keyWalk row (x' - 15)) ∧
    (∀ c : Nat,
      kb.layout = KEYBOARD_LOWERCASE ∧ c = 97 ∨ kb.layout = KEYBOARD_UPPERCASE ∧ c = 65 →
      (kb.layout[1]?).bind (fun row => row[0]?) = some 32 ∧
      (kb.layout[1]?).bind (fun row => row[1]?) = some c ∧
      keyHit kb.layout x y = some (Hit.char c) ∧
      (kb.cursorIndex + 1 < data.length →
        onTouchEnd getCharWidth kb x y =
          some { kb := { kb with
                   field := some (inserted data kb.cursorIndex c)
                   cursorIndex := kb.cursorIndex + 1
                   cursorPos := kb.cursorPos + (getCharWidth c : Int) }
                 ret := true
                 calls := [Call.onKeyPress, Call.fieldInvalidate] }) ∧
      (data.length ≤ kb.cursorIndex + 1 →
        onTouchEnd getCharWidth kb x y =
          some { kb := kb, ret := true,
                 calls := [Call.onKeyPress, Call.fieldInvalidate] })) := by
  refine ⟨keyWalk_blank, ?_⟩
  intro c hc
  have hk : keyHit kb.layout x y = some (Hit.char c) := by
    rcases hc with ⟨hlay, hc⟩ | ⟨hlay, hc⟩
    · subst hc
      rw [keyHit, hy, hlay]
      simp only [KEYBOARD_LOWERCASE, List.getElem?_cons_succ, List.getElem?_cons_zero,
        Option.map_some', keyWalk_blank]
      rw [keyWalk_head 97 _ _ (by decide) (by decide) (by omega)]
      rfl
    · subst hc
      rw [keyHit, hy, hlay]
      simp only [KEYBOARD_UPPERCASE, List.getElem?_cons_succ, List.getElem?_cons_zero,
        Option.map_some', keyWalk_blank]
      rw [keyWalk_head 65 _ _ (by decide) (by decide) (by omega)]
      rfl
  refine ⟨?_, ?_, hk,
    fun hroom => onTouchEnd_char_room getCharWidth kb data x y c hf hk hroom,
    fun hfull => onTouchEnd_char_full getCharWidth kb data x y c hf hk hfull⟩
  · rcases hc with ⟨hlay, _⟩ | ⟨hlay, _⟩ <;> rw [hlay] <;> rfl
  · rcases hc with ⟨hlay, hc⟩ | ⟨hlay, hc⟩ <;> rw [hlay, hc] <;> rfl

theorem blank_spacer_never_hit_witness :
    (⟨some [0, 0, 0], 0, 0, KEYBOARD_UPPERCASE⟩ : State).field = some [0, 0, 0] ∧
    rowOf 50 = 1 ∧ (10 : Int) ≤ 15 ∧ 0 + 1 < [0, 0, 0].length ∧
    keyHit KEYBOARD_UPPERCASE 10 50 = some (Hit.char 65) ∧
    onTouchEnd (fun _ => 6) ⟨some [0, 0, 0], 0, 0, KEYBOARD_UPPERCASE⟩ 10 50 =
      some ⟨⟨some (inserted [0, 0, 0] 0 65), 0 + (((fun _ => 6) 65 : Nat) : Int), 0 + 1,
        KEYBOARD_UPPERCASE⟩, true, [Call.onKeyPress, Call.fieldInvalidate]⟩ :=
  ⟨rfl, by decide, by decide, by decide,
    ((blank_spacer_never_hit (fun _ => 6) ⟨some [0, 0, 0], 0, 0, KEYBOARD_UPPERCASE⟩
      [0, 0, 0] 10 50 rfl (by decide) (by decide)).2 65 (Or.inr ⟨rfl, rfl⟩)).2.2.1,
    ((blank_spacer_never_hit (fun _ => 6) ⟨some [0, 0, 0], 0, 0, KEYBOARD_UPPERCASE⟩
      [0, 0, 0] 10 50 rfl (by decide) (by decide)).2 65 (Or.inr ⟨rfl, rfl⟩)).2.2.2.1
      (by decide)⟩

/-! ## C16: the first two rows of the layouts -/

/-- C16 (counterexample): the second row of the numbers layout holds 2 tokens,
not 10, and the second row of the lowercase layout opens with a blank spacer,
which is not a literal key, and holds 9 literal keys after it. -/
theorem second_row_not_ten_literals :
    KEYBOARD_NUMBERS ∈ KEYBOARD_LAYOUTS ∧
    KEYBOARD_NUMBERS[1]? = some [95, 45] ∧
    [95, 45].length ≠ 10 ∧
    KEYBOARD_LOWERCASE ∈ KEYBOARD_LAYOUTS ∧
    KEYBOARD_LOWERCASE[1]? = some [32, 97, 115, 100, 102, 103, 104, 106, 107, 108] ∧
    isLiteral 32 = false ∧
    ([32, 97, 115, 100, 102, 103, 104, 106, 107, 108].filter isLiteral).length = 9 := by
  decide

/-- C16 (amended): in every layout the first row consists of exactly 10
literal keys, each 30px wide in the key walk and in `paint`; the second row
is a 15px blank spacer followed by 9 literal keys in the lowercase and
uppercase layouts, and 2 literal keys in the numbers layout. -/
theorem first_row_ten_literals (layout : List (List Nat))
    (hl : layout ∈ KEYBOARD_LAYOUTS) :
    ∃ row1 row2,
      layout[0]? = some row1 ∧ layout[1]? = some row2 ∧
      row1.length = 10 ∧
      (∀ k ∈ row1, isLiteral k = true) ∧
      (∀ k, isLiteral k = true → ∀ x y : Int,
        keyWalk [k] x = (if x ≤ 30 then (Hit.char k, x) else (Hit.miss, x - 30)) ∧
        paintRow y [k] x = some ([Draw.sizedText x y k], x + 30)) ∧
      (layout = KEYBOARD_LOWERCASE ∨ layout = KEYBOARD_UPPERCASE →
        ∃ keys, row2 = 32 :: keys ∧ keys.length = 9 ∧ ∀ k ∈ keys, isLiteral k = true) ∧
      (layout = KEYBOARD_NUMBERS →
        row2.length = 2 ∧ ∀ k ∈ row2, isLiteral k = true) := by
  have hw : ∀ k, isLiteral k = true → ∀ x y : Int,
      keyWalk [k] x = (if x ≤ 30 then (Hit.char k, x) else (Hit.miss, x - 30)) ∧
      paintRow y [k] x = some ([Draw.sizedText x y k], x + 30) :=
    fun k hk x y => ⟨keyWalk_literal k hk x, paintRow_literal k hk x y⟩
  rcases layouts_cases layout hl with h | h | h <;> subst h
  · refine ⟨_, _, rfl, rfl, by decide, by decide, hw, ?_, ?_⟩
    · intro _; exact ⟨_, rfl, by decide, by decide⟩
    · intro h; exact absurd h (by decide)
  · refine ⟨_, _, rfl, rfl, by decide, by decide, hw, ?_, ?_⟩
    · intro _; exact ⟨_, rfl, by decide, by decide⟩
    · intro h; exact absurd h (by decide)
  · refine ⟨_, _, rfl, rfl, by decide, by decide, hw, ?_, ?_⟩
    · intro h; exact absurd h (by decide)
    · intro _; exact ⟨by decide, by decide⟩

theorem first_row_ten_literals_witness :
    KEYBOARD_NUMBERS ∈ KEYBOARD_LAYOUTS ∧
    ∃ row1 row2,
      KEYBOARD_NUMBERS[0]? = some row1 ∧ KEYBOARD_NUMBERS[1]? = some row2 ∧
      row1.length = 10 ∧
      (∀ k ∈ row1, isLiteral k = true) ∧
      (∀ k, isLiteral k = true → ∀ x y : Int,
        keyWalk [k] x = (if x ≤ 30 then (Hit.char k, x) else (Hit.miss, x - 30)) ∧
        paintRow y [k] x = some ([Draw.sizedText x y k], x + 30)) ∧
      (KEYBOARD_NUMBERS = KEYBOARD_LOWERCASE ∨ KEYBOARD_NUMBERS = KEYBOARD_UPPERCASE →
        ∃ keys, row2 = 32 :: keys ∧ keys.length = 9 ∧ ∀ k ∈ keys, isLiteral k = true) ∧
      (KEYBOARD_NUMBERS = KEYBOARD_NUMBERS →
        row2.length = 2 ∧ ∀ k ∈ row2, isLiteral k = true) :=
  ⟨by decide, first_row_ten_literals KEYBOARD_NUMBERS (by decide)⟩

/-! ## C17: the row index -/

/-- C17: for every `y < 160` (also `y < 5` and negative `y`) the row index of
line 178 is one of 0, 1, 2, 3, so the lookup of the row in each of the layouts
succeeds; it is 0 for `y < 45` and `r` for `5 + 40 r ≤ y < 45 + 40 r`. -/
theorem row_index_in_range (y : Int) (hy : y < 160) :
    rowOf y < 4 ∧
    (y < 45 → rowOf y = 0) ∧
    (∀ r : Nat, 5 + 40 * (r : Int) ≤ y → y < 45 + 40 * (r : Int) → rowOf y = r) ∧
    (∀ layout ∈ KEYBOARD_LAYOUTS, ∃ key, layout[rowOf y]? = some key) := by
  refine ⟨rowOf_lt y hy, rowOf_top y, ?_, ?_⟩
  · intro r hlo hhi
    exact rowOf_eq y r (by omega) hlo hhi
  · intro layout hl
    obtain ⟨key, hkey, _⟩ := layouts_row layout hl (rowOf y) (rowOf_lt y hy)
    exact ⟨key, hkey⟩

theorem row_index_in_range_witness :
    (100 : Int) < 160 ∧ rowOf 100 < 4 ∧ ((100 : Int) < 45 → rowOf 100 = 0) ∧
    (∀ r : Nat, 5 + 40 * (r : Int) ≤ 100 → (100 : Int) < 45 + 40 * (r : Int) → rowOf 100 = r) ∧
    (∀ layout ∈ KEYBOARD_LAYOUTS, ∃ key, layout[rowOf 100]? = some key) :=
  ⟨by decide, row_index_in_range 100 (by decide)⟩

/-! ## C18: capacity and terminator of the buffer -/

/-- C18 (counterexample): the buffer `"a"` in 2 bytes contains a terminator and
the cursor is at index 0, within the content; the touch `(10, 10)` on the key
`q` leaves a buffer of the same capacity with the bytes `q a` and no terminator. -/
theorem insert_shifts_terminator_out :
    (0 : Nat) ∈ [97, 0] ∧ 0 ≤ contentLength [97, 0] ∧
    KEYBOARD_LOWERCASE ∈ KEYBOARD_LAYOUTS ∧ rowOf 10 < 4 ∧
    onTouchEnd (fun _ => 6) ⟨some [97, 0], 0, 0, KEYBOARD_LOWERCASE⟩ 10 10 =
      some ⟨⟨some [113, 97], 6, 1, KEYBOARD_LOWERCASE⟩, true,
        [Call.onKeyPress, Call.fieldInvalidate]⟩ ∧
    [113, 97].length = [97, 0].length ∧
    (0 : Nat) ∉ [113, 97] := by
  decide

/-- C18 (amended): on a bound field with `cursorIndex` at most the content
length, every `onTouchEnd(x, y)` whose `y` selects one of the four rows of one
of the layouts has an outcome whose buffer has the same capacity; and when the
buffer contains a terminator, the resulting buffer contains one as well,
provided the content length is below capacity - 1, or the cursor is at the end
of the content, or the touch does not hit a literal key or the space-bar. -/
theorem capacity_and_terminator_preserved (getCharWidth : Nat → Nat) (kb : State)
    (data : List Nat) (x y : Int)
    (hf : kb.field = some data)
    (hci : kb.cursorIndex ≤ contentLength data)
    (hl : kb.layout ∈ KEYBOARD_LAYOUTS)
    (hy : rowOf y < 4) :
    ∃ o data',
      onTouchEnd getCharWidth kb x y = some o ∧
      o.kb.field = some data' ∧
      data'.length = data.length ∧
      (0 ∈ data →
        (contentLength data + 1 < data.length ∨ kb.cursorIndex = contentLength data ∨
          ∀ c, keyHit kb.layout x y ≠ some (Hit.char c)) →
        0 ∈ data') := by
  have hlen := contentLength_le data
  obtain ⟨o, ho, hcase⟩ :=
    onTouchEnd_cases_hit getCharWidth kb data x y hf (by omega) hl hy
  rcases hcase with h | ⟨layout, _, h⟩ | ⟨c, hc, hroom, hk, h⟩ | ⟨b, hb0, _, h⟩
  · exact ⟨o, data, ho, by rw [h]; exact hf, rfl, fun ht _ => ht⟩
  · exact ⟨o, data, ho, by rw [h]; exact hf, rfl, fun ht _ => ht⟩
  · refine ⟨o, _, ho, by rw [h], inserted_length data _ c hroom, ?_⟩
    intro ht hsafe
    have hlt := contentLength_lt_of_mem data ht
    rcases hsafe with h1 | h2 | h3
    · exact mem_inserted_zero data _ c hc hci h1
    · by_cases h1 : contentLength data + 1 < data.length
      · exact mem_inserted_zero data _ c hc hci h1
      · omega
    · exact absurd hk (h3 c)
  · exact ⟨o, _, ho, by rw [h], removed_length data _ hb0 (by omega),
      fun _ _ => mem_removed_zero data _⟩

theorem capacity_and_terminator_preserved_witness :
    (⟨some [97, 98, 0], 12, 2, KEYBOARD_LOWERCASE⟩ : State).field = some [97, 98, 0] ∧
    (2 : Nat) ≤ contentLength [97, 98, 0] ∧
    KEYBOARD_LOWERCASE ∈ KEYBOARD_LAYOUTS ∧
    rowOf 10 < 4 ∧
    ∃ o data',
      onTouchEnd (fun _ => 6) ⟨some [97, 98, 0], 12, 2, KEYBOARD_LOWERCASE⟩ 10 10 = some o ∧
      o.kb.field = some data' ∧
      data'.length = [97, 98, 0].length ∧
      ((0 : Nat) ∈ [97, 98, 0] →
        (contentLength [97, 98, 0] + 1 < [97, 98, 0].length ∨
          (2 : Nat) = contentLength [97, 98, 0] ∨
          ∀ c, keyHit KEYBOARD_LOWERCASE 10 10 ≠ some (Hit.char c)) →
        0 ∈ data') :=
  ⟨rfl, by decide, by decide, by decide,
    capacity_and_terminator_preserved (fun _ => 6)
      ⟨some [97, 98, 0], 12, 2, KEYBOARD_LOWERCASE⟩ [97, 98, 0] 10 10 rfl
      (by decide) (by decide) (by decide)⟩

/-! ## C19: what you see is what you touch -/

/-- C19: for each of the layouts, each row `i` in 0..3 and each non-blank token
`k` at position `j` of the row, `paint` reaches the token with
`x = px = 15 +` the widths of the tokens before it, in the row painted at
`py = 15 + 40 i`, and makes the token's drawing calls at `(px, py)`; the touch
`(px, py)` selects row `i`, and its key walk passes exactly the tokens before
position `j` and ends on the token `k` (with 15 left of `x`). -/
theorem touch_at_paint_origin_hits_token (layout : List (List Nat))
    (hl : layout ∈ KEYBOARD_LAYOUTS) (i : Nat) (hi : i < 4) :
    ∃ row, layout[i]? = some row ∧
      ∀ (j k : Nat), row[j]? = some k → k ≠ 32 →
        ∃ ds1 ds2 xe,
          paintRow (15 + (i : Int) * 40) (row.take j) 15 =
            some (ds1, 15 + specRowWidth (row.take j)) ∧
          paintRow (15 + (i : Int) * 40) row 15 =
            some (ds1 ++
              tokenDraws k (15 + specRowWidth (row.take j)) (15 + (i : Int) * 40) ++ ds2,
              xe) ∧
          tokenDraws k (15 + specRowWidth (row.take j)) (15 + (i : Int) * 40) ≠ [] ∧
          rowOf (15 + (i : Int) * 40) = i ∧
          keyWalk row (15 + specRowWidth (row.take j)) = (tokenHit k, 15) ∧
          keyHit layout (15 + specRowWidth (row.take j)) (15 + (i : Int) * 40) =
            some (tokenHit k) := by
  obtain ⟨row, hrow, hmem⟩ := layouts_row layout hl i hi
  have h0 : ∀ t ∈ row, t ≠ 0 := layouts_ne_zero layout hl row hmem
  have hs : ∀ t ∈ row, 128 ≤ t → t ≤ 132 := layouts_special_le layout hl row hmem
  refine ⟨row, hrow, ?_⟩
  intro j k hk h32
  have hj : j < row.length := (List.getElem?_eq_some.mp hk).1
  have hkj : row[j] = k := (List.getElem?_eq_some.mp hk).2
  have hsplit : row.take j ++ k :: row.drop (j + 1) = row := by
    rw [← hkj, ← List.drop_eq_getElem_cons hj, List.take_append_drop]
  have hrowOf : rowOf (15 + (i : Int) * 40) = i := by
    apply rowOf_eq _ i (by omega) <;> omega
  obtain ⟨ds1, ds2, xe, hpre, hpaint, hne, hwalk⟩ :=
    paint_touch_token (15 + (i : Int) * 40) (row.take j) (row.drop (j + 1)) k
      (by rw [hsplit]; exact h0) (by rw [hsplit]; exact hs) h32
  rw [hsplit] at hpaint hwalk
  refine ⟨ds1, ds2, xe, hpre, hpaint, hne, hrowOf, hwalk, ?_⟩
  rw [keyHit, hrowOf, hrow, Option.map_some', hwalk]

theorem touch_at_paint_origin_hits_token_witness :
    KEYBOARD_LOWERCASE ∈ KEYBOARD_LAYOUTS ∧ 2 < 4 ∧
    ∃ row, KEYBOARD_LOWERCASE[2]? = some row ∧
      ∀ (j k : Nat), row[j]? = some k → k ≠ 32 →
        ∃ ds1 ds2 xe,
          paintRow (15 + ((2 : Nat) : Int) * 40) (row.take j) 15 =
            some (ds1, 15 + specRowWidth (row.take j)) ∧
          paintRow (15 + ((2 : Nat) : Int) * 40) row 15 =
            some (ds1 ++
              tokenDraws k (15 + specRowWidth (row.take j)) (15 + ((2 : Nat) : Int) * 40) ++
                ds2,
              xe) ∧
          tokenDraws k (15 + specRowWidth (row.take j)) (15 + ((2 : Nat) : Int) * 40) ≠ [] ∧
          rowOf (15 + ((2 : Nat) : Int) * 40) = 2 ∧
          keyWalk row (15 + specRowWidth (row.take j)) = (tokenHit k, 15) ∧
          keyHit KEYBOARD_LOWERCASE (15 + specRowWidth (row.take j))
            (15 + ((2 : Nat) : Int) * 40) = some (tokenHit k) :=
  ⟨by decide, by decide,
    touch_at_paint_origin_hits_token KEYBOARD_LOWERCASE (by decide) 2 (by decide)⟩

/-! ## C20: indices into the icon and layout tables -/

/-- C20: for every control token (byte at least 128) in every row of every
layout, the icon index of `paint` (the byte minus 128, truncated to 8 bits) is
below 5, the length of `LBM_SPECIAL_KEYS`, so the icon lookup succeeds; and for
every such token other than backspace (128) the layout index of `onTouchEnd`
(the byte minus 129) is not negative and below 4, the length of
`KEYBOARD_LAYOUTS`, so the layout lookup succeeds. -/
theorem control_indices_in_range (layout : List (List Nat))
    (hl : layout ∈ KEYBOARD_LAYOUTS) (row : List Nat) (hrow : row ∈ layout) (k : Nat)
    (hk : k ∈ row) (h128 : 128 ≤ k) :
    LBM_SPECIAL_KEYS.length = 5 ∧
    (k - 128) % 256 < LBM_SPECIAL_KEYS.length ∧
    (∃ bmp, LBM_SPECIAL_KEYS[(k - 128) % 256]? = some bmp) ∧
    KEYBOARD_LAYOUTS.length = 4 ∧
    (k ≠ KEYBOARD_BACKSPACE →
      129 ≤ k ∧ k - 129 < KEYBOARD_LAYOUTS.length ∧
      ∃ target, KEYBOARD_LAYOUTS[k - 129]? = some target) := by
  have hle := layouts_special_le layout hl row hrow k hk h128
  have h5 : LBM_SPECIAL_KEYS.length = 5 := rfl
  have h4 : KEYBOARD_LAYOUTS.length = 4 := rfl
  have hidx : (k - 128) % 256 < LBM_SPECIAL_KEYS.length := by rw [h5]; omega
  refine ⟨h5, hidx, ⟨_, List.getElem?_eq_getElem hidx⟩, h4, ?_⟩
  intro hne
  have hne128 : k ≠ 128 := hne
  have hidx2 : k - 129 < KEYBOARD_LAYOUTS.length := by rw [h4]; omega
  exact ⟨by omega, hidx2, ⟨_, List.getElem?_eq_getElem hidx2⟩⟩

theorem control_indices_in_range_witness :
    KEYBOARD_NUMBERS ∈ KEYBOARD_LAYOUTS ∧
    [KEYBOARD_SET_LETTERS, KEYBOARD_SPACE, KEYBOARD_ENTER] ∈ KEYBOARD_NUMBERS ∧
    KEYBOARD_SET_LETTERS ∈ [KEYBOARD_SET_LETTERS, KEYBOARD_SPACE, KEYBOARD_ENTER] ∧
    128 ≤ KEYBOARD_SET_LETTERS ∧
    LBM_SPECIAL_KEYS.length = 5 ∧
    (KEYBOARD_SET_LETTERS - 128) % 256 < LBM_SPECIAL_KEYS.length ∧
    (∃ bmp, LBM_SPECIAL_KEYS[(KEYBOARD_SET_LETTERS - 128) % 256]? = some bmp) ∧
    KEYBOARD_LAYOUTS.length = 4 ∧
    (KEYBOARD_SET_LETTERS ≠ KEYBOARD_BACKSPACE →
      129 ≤ KEYBOARD_SET_LETTERS ∧ KEYBOARD_SET_LETTERS - 129 < KEYBOARD_LAYOUTS.length ∧
      ∃ target, KEYBOARD_LAYOUTS[KEYBOARD_SET_LETTERS - 129]? = some target) :=
  ⟨by decide, by decide, by decide, by decide,
    control_indices_in_range KEYBOARD_NUMBERS (by decide)
      [KEYBOARD_SET_LETTERS, KEYBOARD_SPACE, KEYBOARD_ENTER] (by decide)
      KEYBOARD_SET_LETTERS (by decide) (by decide)⟩

end TextKeyboard
